import Mathlib

/-!
# Verification of the LP-returns valuation and returns engine

A shallow embedding, in Lean 4, of the core computations of the `lp-returns`
repository (an analytics pass over liquidity-provider position logs):

* the fixed-point square-root price decoder (`src/index.ts`,
  `priceToken1PerToken0FromSqrtPriceX96`), together with a model of IEEE-754
  binary64 rounding over the rationals;
* the swap-cache nearest-before / nearest-after searches (`src/index.ts`,
  `findClosestSwapBeforeFromCache` / `findClosestSwapAfterFromCache`);
* the per-position statistics of the analysis step (`calculatePositionStats`),
  the XIRR Newton-Raphson solver (`calculateXIRR`), and the wallet-level
  aggregation over Complete positions;
* the neighbor-window reward-attribution heuristic of the main processing loop.

Numbers that JavaScript holds in IEEE-754 doubles are modelled as exact
rationals `ℚ`; timestamps are modelled as epoch milliseconds `ℕ` (the code
only ever compares, subtracts and groups them).  `Math.pow`, an external
primitive with a transcendental result, is modelled as an explicit parameter
`pw : ℚ → ℚ → ℚ` threaded through the XIRR solver.
-/

namespace LPReturns

/-! ## IEEE-754 binary64 rounding over ℚ

The price-decoder claims are about where the conversion to floating point
happens, so for them (and only for them) double-precision rounding is modelled
exactly: `fpRound q` is the rational value of the binary64 number nearest to
`q`, with ties to even, assuming an unbounded exponent (the values involved in
price decoding are far from overflow and underflow).  Every JavaScript
arithmetic primitive on doubles returns the correctly rounded exact result, so
each operation of the decoder is one `fpRound` of an exact rational. -/

/-- Round a rational to the nearest integer, ties to even. -/
def roundTiesEven (x : ℚ) : ℤ :=
  let f := ⌊x⌋
  if x - f < 1/2 then f
  else if 1/2 < x - f then f + 1
  else if f % 2 = 0 then f else f + 1

/-- Round a positive rational to 53 significant bits (round to nearest,
ties to even).  `Int.log 2 q` is the floor of the base-2 logarithm, so
`q * 2 ^ (52 - e)` lies in `[2^52, 2^53)` and rounding it to an integer
keeps exactly 53 bits. -/
def posRound (q : ℚ) : ℚ :=
  let e : ℤ := Int.log 2 q
  ((roundTiesEven (q * 2 ^ ((52 : ℤ) - e)) : ℤ) : ℚ) * 2 ^ (e - 52)

/-- Binary64 rounding of an arbitrary rational (unbounded exponent). -/
def fpRound (q : ℚ) : ℚ :=
  if q = 0 then 0
  else if 0 < q then posRound q
  else -posRound (-q)

/-! ## Price decoder (`src/index.ts`) -/

/-- The implemented decoder, line for line:

`const num = Number(sqrtPriceX96) / Number(Q96); return num * num;`

`Number(sqrtPriceX96)` rounds the big integer to a double, the division by
`Number(Q96) = 2^96` is one double operation, and the final squaring is one
double multiplication. -/
def priceToken1PerToken0FromSqrtPriceX96 (sqrtPriceX96 : ℕ) : ℚ :=
  let num := fpRound (fpRound (sqrtPriceX96 : ℚ) / fpRound ((2 : ℚ) ^ (96 : ℕ)))
  fpRound (num * num)

/-- The decoding the specification mandates: square the arbitrary-precision
integer and rescale by `2^192` exactly, converting to floating point only
once at the end.  Stated for comparison with the implemented decoder. -/
def specPriceToken1PerToken0 (sqrtPriceX96 : ℕ) : ℚ :=
  fpRound (((sqrtPriceX96 : ℚ)) ^ (2 : ℕ) / (2 : ℚ) ^ (192 : ℕ))

/-! ## Swap cache searches (`src/index.ts`) -/

/-- A cached swap event.  `transactionHash` and the packed price are carried
along but play no role in the searches. -/
structure SwapEvent where
  blockNumber : ℕ
  index : ℕ
  sqrtPriceX96 : ℕ
  deriving DecidableEq, Repr

/-- The test `swap.blockNumber < block || (swap.blockNumber === block && swap.index < logIndex)`. -/
def beforeQuery (s : SwapEvent) (block logIndex : ℕ) : Bool :=
  s.blockNumber < block || (s.blockNumber == block && s.index < logIndex)

/-- The test `swap.blockNumber > block || (swap.blockNumber === block && swap.index > logIndex)`. -/
def afterQuery (s : SwapEvent) (block logIndex : ℕ) : Bool :=
  block < s.blockNumber || (s.blockNumber == block && logIndex < s.index)

/-- Strict lexicographic order on the composite key `(blockNumber, index)`;
the swap cache is sorted by it. -/
def swapKeyLt (a b : SwapEvent) : Prop :=
  a.blockNumber < b.blockNumber ∨ (a.blockNumber = b.blockNumber ∧ a.index < b.index)

instance : DecidableRel swapKeyLt := fun a b =>
  inferInstanceAs (Decidable
    (a.blockNumber < b.blockNumber ∨ (a.blockNumber = b.blockNumber ∧ a.index < b.index)))

/-- The loop of `findClosestSwapBeforeFromCache`: keep updating `result`
while swaps are before the target, break at the first one that is not. -/
def findBeforeAux (block logIndex : ℕ) : List SwapEvent → Option SwapEvent → Option SwapEvent
  | [], result => result
  | s :: rest, result =>
    if beforeQuery s block logIndex then findBeforeAux block logIndex rest (some s)
    else result

/-- Find the closest swap before the query key, scanning the sorted cache. -/
def findClosestSwapBeforeFromCache (swaps : List SwapEvent) (block logIndex : ℕ) :
    Option SwapEvent :=
  findBeforeAux block logIndex swaps none

/-- Find the closest swap after the query key: return the first swap whose
key is after the target. -/
def findClosestSwapAfterFromCache : List SwapEvent → ℕ → ℕ → Option SwapEvent
  | [], _, _ => none
  | s :: rest, block, logIndex =>
    if afterQuery s block logIndex then some s
    else findClosestSwapAfterFromCache rest block logIndex

/-- Order-insensitive reference: among the swaps before the query key, pick
one with the greatest key, scanning the whole list. -/
def bruteNearestBefore (swaps : List SwapEvent) (block logIndex : ℕ) : Option SwapEvent :=
  (swaps.filter fun s => beforeQuery s block logIndex).foldl
    (fun acc s =>
      match acc with
      | none => some s
      | some t => if swapKeyLt t s then some s else some t)
    none

/-- Order-insensitive reference: among the swaps after the query key, pick
one with the smallest key, scanning the whole list. -/
def bruteNearestAfter (swaps : List SwapEvent) (block logIndex : ℕ) : Option SwapEvent :=
  (swaps.filter fun s => afterQuery s block logIndex).foldl
    (fun acc s =>
      match acc with
      | none => some s
      | some t => if swapKeyLt s t then some s else some t)
    none

/-! ## Analysis rows (`src/analyze.ts`)

The analysis step reads back the per-action valuation rows.  Only the
columns the analysed computations touch are modelled; `timestamp` is the
epoch-millisecond value of the row's timestamp (the code only builds `Date`s
from it, compares them and subtracts them). -/

/-- The four action kinds that survive the relevant-action filter of the
processing step; the analysis rows contain no others. -/
inductive ActionKind where
  | mint
  | burn
  | collect
  | gauge_getReward
  deriving DecidableEq, Repr

/-- One row of `transaction_details.csv`, as the analysis step sees it. -/
structure AnalysisRow where
  timestamp : ℕ
  token_id : String
  action : ActionKind
  cbBTC_price : ℚ
  amount0_dec : ℚ
  amount1_dec : ℚ
  fee0_dec : ℚ
  fee1_dec : ℚ
  reward : ℚ
  amount0_usd : ℚ
  amount1_usd : ℚ
  AERO_usd : ℚ
  deriving DecidableEq, Repr

/-- Timestamp comparison used by the in-place sorts of the analysis step. -/
def tsLe (a b : AnalysisRow) : Prop := a.timestamp ≤ b.timestamp

instance : DecidableRel tsLe := fun a b =>
  inferInstanceAs (Decidable (a.timestamp ≤ b.timestamp))

instance : IsTotal AnalysisRow tsLe := ⟨fun a b => Nat.le_total a.timestamp b.timestamp⟩

instance : IsTrans AnalysisRow tsLe := ⟨fun _ _ _ h h' => Nat.le_trans h h'⟩

/-! ## XIRR solver (`calculateXIRR`) -/

/-- A dated cash flow: negative amounts are capital deployed, positive
amounts capital returned. -/
structure CashFlow where
  date : ℕ
  amount : ℚ
  deriving DecidableEq, Repr

/-- Date comparison used by `[...cashFlows].sort((a, b) => a.date.getTime() - b.date.getTime())`. -/
def dateLe (a b : CashFlow) : Prop := a.date ≤ b.date

instance : DecidableRel dateLe := fun a b =>
  inferInstanceAs (Decidable (a.date ≤ b.date))

instance : IsTotal CashFlow dateLe := ⟨fun a b => Nat.le_total a.date b.date⟩

instance : IsTrans CashFlow dateLe := ⟨fun _ _ _ h h' => Nat.le_trans h h'⟩

/-- The sorted copy of the cash flows. -/
def sortCashFlows (flows : List CashFlow) : List CashFlow :=
  List.insertionSort dateLe flows

/-- The date of the earliest cash flow (`sorted[0].date`); `0` for the empty
list, which the solver never reaches. -/
def xirrFirstDate (flows : List CashFlow) : ℕ :=
  match sortCashFlows flows with
  | [] => 0
  | first :: _ => first.date

/-- Years from the earliest flow:
`daysFromStart = (t - firstDate) / (1000*60*60*24)`, then `years = days / 365`. -/
def yearsFrom (d0 : ℕ) (cf : CashFlow) : ℚ :=
  (((cf.date : ℚ) - (d0 : ℚ)) / 86400000) / 365

/-- Net present value at rate `r`:
`npv += amount * pw(1 + rate, -years)` over the sorted flows. -/
def npvOf (pw : ℚ → ℚ → ℚ) (flows : List CashFlow) (r : ℚ) : ℚ :=
  (sortCashFlows flows).foldl
    (fun s cf => s + cf.amount * pw (1 + r) (-(yearsFrom (xirrFirstDate flows) cf))) 0

/-- Derivative of the net present value at rate `r`:
`dnpv += -years * amount * discountFactor / (1 + rate)` over the sorted flows. -/
def dnpvOf (pw : ℚ → ℚ → ℚ) (flows : List CashFlow) (r : ℚ) : ℚ :=
  (sortCashFlows flows).foldl
    (fun s cf =>
      s + -(yearsFrom (xirrFirstDate flows) cf) * cf.amount *
        pw (1 + r) (-(yearsFrom (xirrFirstDate flows) cf)) / (1 + r)) 0

/-- The two clamping statements run after each Newton update:
`if (rate < -0.99) rate = -0.99; if (rate > 10) rate = 10;`. -/
def clampRate (r : ℚ) : ℚ :=
  let r1 := if r < -(99/100) then -(99/100) else r
  if 10 < r1 then 10 else r1

/-- The convergence tolerance (default parameter `tolerance = 1e-6`). -/
def xirrTolerance : ℚ := 1/1000000

/-- The Newton-Raphson loop with its remaining iteration budget: converged
rates are returned as percentages, a zero derivative aborts, and an
exhausted budget (default `maxIterations = 100`) aborts. -/
def xirrLoop (npv dnpv : ℚ → ℚ) : ℕ → ℚ → Option ℚ
  | 0, _ => none
  | fuel + 1, rate =>
    if |npv rate| < xirrTolerance then some (rate * 100)
    else if dnpv rate = 0 then none
    else xirrLoop npv dnpv fuel (clampRate (rate - npv rate / dnpv rate))

/-- The sequence of rates the loop visits, starting from the initial guess
`0.1`, with the clamping applied at every step. -/
def xirrRates (npv dnpv : ℚ → ℚ) : ℕ → ℚ
  | 0 => 1/10
  | k + 1 =>
    clampRate (xirrRates npv dnpv k - npv (xirrRates npv dnpv k) / dnpv (xirrRates npv dnpv k))

/-- The XIRR solver.  `pw` models the JavaScript `Math.pow` primitive. -/
def calculateXIRR (pw : ℚ → ℚ → ℚ) (cashFlows : List CashFlow) : Option ℚ :=
  if cashFlows.length < 2 then none
  else
    let sorted := sortCashFlows cashFlows
    let hasOutflow := sorted.any fun cf => cf.amount < 0
    let hasInflow := sorted.any fun cf => 0 < cf.amount
    if !hasOutflow || !hasInflow then none
    else xirrLoop (npvOf pw cashFlows) (dnpvOf pw cashFlows) 100 (1/10)

/-- The sequence of rates the solver visits on a given cash-flow list. -/
def xirrRateSeq (pw : ℚ → ℚ → ℚ) (flows : List CashFlow) : ℕ → ℚ :=
  xirrRates (npvOf pw flows) (dnpvOf pw flows)

/-- Convergence test of iteration `k`: `|NPV| < 1e-6` at the rate the
iteration starts from. -/
def xirrConvergedAt (pw : ℚ → ℚ → ℚ) (flows : List CashFlow) (k : ℕ) : Prop :=
  |npvOf pw flows (xirrRateSeq pw flows k)| < xirrTolerance

/-- Whether iteration `k` finds a NPV derivative of exactly zero. -/
def xirrDerivZeroAt (pw : ℚ → ℚ → ℚ) (flows : List CashFlow) (k : ℕ) : Prop :=
  dnpvOf pw flows (xirrRateSeq pw flows k) = 0

/-- The precondition failures of the solver: fewer than 2 flows, no
negative flow, or no positive flow. -/
def xirrIllPosed (flows : List CashFlow) : Prop :=
  flows.length < 2 ∨ (∀ cf ∈ flows, ¬cf.amount < 0) ∨ (∀ cf ∈ flows, ¬0 < cf.amount)

/-! ## Per-position statistics (`calculatePositionStats`)

Each local constant of the source function is a top-level definition here so
the theorems can speak about it; `calculatePositionStats` assembles them. -/

/-- The position's mint rows, sorted by timestamp (stable, as the JavaScript
in-place sort is). -/
def mintsOf (rows : List AnalysisRow) : List AnalysisRow :=
  List.insertionSort tsLe (rows.filter fun r => r.action = ActionKind.mint)

/-- The position's burn rows, sorted by timestamp. -/
def burnsOf (rows : List AnalysisRow) : List AnalysisRow :=
  List.insertionSort tsLe (rows.filter fun r => r.action = ActionKind.burn)

/-- The position's collect rows (never sorted by the code). -/
def collectsOf (rows : List AnalysisRow) : List AnalysisRow :=
  rows.filter fun r => r.action = ActionKind.collect

/-- `mints[0]`. -/
def first_mintOf (rows : List AnalysisRow) : Option AnalysisRow := (mintsOf rows).head?

/-- `burns[0]`. -/
def first_burnOf (rows : List AnalysisRow) : Option AnalysisRow := (burnsOf rows).head?

/-- `mints.reduce((sum, m) => sum + m.amount0_dec, 0)`. -/
def total_deposit_usdcOf (rows : List AnalysisRow) : ℚ :=
  (mintsOf rows).foldl (fun s m => s + m.amount0_dec) 0

/-- `mints.reduce((sum, m) => sum + m.amount1_dec, 0)`. -/
def total_deposit_cbbtcOf (rows : List AnalysisRow) : ℚ :=
  (mintsOf rows).foldl (fun s m => s + m.amount1_dec) 0

/-- `mints.reduce((sum, m) => sum + m.amount0_usd + m.amount1_usd, 0)`. -/
def total_deposit_usdOf (rows : List AnalysisRow) : ℚ :=
  (mintsOf rows).foldl (fun s m => s + m.amount0_usd + m.amount1_usd) 0

/-- `first_mint ? first_mint.cbBTC_price : 0`. -/
def btc_price_at_first_mintOf (rows : List AnalysisRow) : ℚ :=
  match first_mintOf rows with
  | some m => m.cbBTC_price
  | none => 0

/-- `burns.reduce((sum, b) => sum + b.amount0_dec, 0)`. -/
def total_withdraw_usdcOf (rows : List AnalysisRow) : ℚ :=
  (burnsOf rows).foldl (fun s b => s + b.amount0_dec) 0

/-- `burns.reduce((sum, b) => sum + b.amount1_dec, 0)`; the burn loop of the
impermanent-loss computation accumulates the same total as `totalCbbtcWithdrawn`. -/
def total_withdraw_cbbtcOf (rows : List AnalysisRow) : ℚ :=
  (burnsOf rows).foldl (fun s b => s + b.amount1_dec) 0

/-- `burns.reduce((sum, b) => sum + b.amount0_usd + b.amount1_usd, 0)`; the
burn loop of the impermanent-loss computation accumulates the same total as
`totalWithdrawValue`. -/
def total_withdraw_usdOf (rows : List AnalysisRow) : ℚ :=
  (burnsOf rows).foldl (fun s b => s + b.amount0_usd + b.amount1_usd) 0

/-- `first_burn ? first_burn.cbBTC_price : 0`. -/
def btc_price_at_first_burnOf (rows : List AnalysisRow) : ℚ :=
  match first_burnOf rows with
  | some b => b.cbBTC_price
  | none => 0

/-- `collects.reduce((sum, c) => sum + (c.fee0_dec + c.fee1_dec * c.cbBTC_price), 0)`. -/
def total_fees_usdOf (rows : List AnalysisRow) : ℚ :=
  (collectsOf rows).foldl (fun s c => s + (c.fee0_dec + c.fee1_dec * c.cbBTC_price)) 0

/-- Position-level reward tokens: every row except `gauge_getReward` rows
(the code treats those as wallet-level only). -/
def total_aero_rewardsOf (rows : List AnalysisRow) : ℚ :=
  (rows.filter fun r => ¬r.action = ActionKind.gauge_getReward).foldl
    (fun s r => s + r.reward) 0

/-- Position-level reward USD: every row except `gauge_getReward` rows. -/
def total_aero_rewards_usdOf (rows : List AnalysisRow) : ℚ :=
  (rows.filter fun r => ¬r.action = ActionKind.gauge_getReward).foldl
    (fun s r => s + r.AERO_usd) 0

/-- `(burnTime - mintTime) / 1000` when both a first mint and a first burn
exist, `0` otherwise. -/
def active_time_secondsOf (rows : List AnalysisRow) : ℚ :=
  match first_mintOf rows, first_burnOf rows with
  | some m, some b => (((b.timestamp : ℚ)) - ((m.timestamp : ℚ))) / 1000
  | _, _ => 0

/-- The weighted average exit price:
`totalCbbtcWithdrawn > 0 ? (totalWithdrawValue - Σ burn.amount0_dec) / totalCbbtcWithdrawn : btc_price_at_first_burn`. -/
def avgExitPriceOf (rows : List AnalysisRow) : ℚ :=
  if 0 < total_withdraw_cbbtcOf rows then
    (total_withdraw_usdOf rows - total_withdraw_usdcOf rows) / total_withdraw_cbbtcOf rows
  else btc_price_at_first_burnOf rows

/-- `hodlValueAtExitUSD = total_deposit_usdc + total_deposit_cbbtc * avgExitPrice`. -/
def hodlValueAtExitUSDOf (rows : List AnalysisRow) : ℚ :=
  total_deposit_usdcOf rows + total_deposit_cbbtcOf rows * avgExitPriceOf rows

/-- `hodlValueAtDepositUSD = total_deposit_usd`. -/
def hodlValueAtDepositUSDOf (rows : List AnalysisRow) : ℚ :=
  total_deposit_usdOf rows

/-- Impermanent loss: computed only when a first mint and a first burn exist
(and, redundantly, some burn exists); `0` otherwise. -/
def impermanent_loss_usdOf (rows : List AnalysisRow) : ℚ :=
  match first_mintOf rows, first_burnOf rows with
  | some _, some _ =>
    if 0 < (burnsOf rows).length then
      total_withdraw_usdOf rows - hodlValueAtExitUSDOf rows
    else 0
  | _, _ => 0

/-- Profit: `(lpValueAtExitUSD - hodlValueAtDepositUSD) + collectedRewardsAmountUSD`
when a first mint and a first burn exist, `0` otherwise. -/
def profit_usdOf (rows : List AnalysisRow) : ℚ :=
  match first_mintOf rows, first_burnOf rows with
  | some _, some _ =>
    (total_withdraw_usdOf rows - hodlValueAtDepositUSDOf rows) + total_aero_rewards_usdOf rows
  | _, _ => 0

/-- The position's cash-flow timeline, in the order the code pushes the
flows: mints (outflows), burns, positive fee collections, then positive
non-`gauge_getReward` rewards. -/
def positionCashFlows (rows : List AnalysisRow) : List CashFlow :=
  ((mintsOf rows).map fun m => ⟨m.timestamp, -(m.amount0_usd + m.amount1_usd)⟩)
    ++ ((burnsOf rows).map fun b => (⟨b.timestamp, b.amount0_usd + b.amount1_usd⟩ : CashFlow))
    ++ ((collectsOf rows).filterMap fun c =>
        if 0 < c.fee0_dec + c.fee1_dec * c.cbBTC_price then
          some (⟨c.timestamp, c.fee0_dec + c.fee1_dec * c.cbBTC_price⟩ : CashFlow)
        else none)
    ++ ((rows.filter fun r => ¬r.action = ActionKind.gauge_getReward ∧ 0 < r.AERO_usd).map
        fun r => (⟨r.timestamp, r.AERO_usd⟩ : CashFlow))

/-- The per-position statistics record produced by `calculatePositionStats`. -/
structure PositionStats where
  token_id : String
  events_count : ℕ
  mint_count : ℕ
  first_mint_timestamp : Option ℕ
  total_deposit_usdc : ℚ
  total_deposit_cbbtc : ℚ
  total_deposit_usd : ℚ
  btc_price_at_first_mint : ℚ
  burn_count : ℕ
  first_burn_timestamp : Option ℕ
  total_withdraw_usdc : ℚ
  total_withdraw_cbbtc : ℚ
  total_withdraw_usd : ℚ
  btc_price_at_first_burn : ℚ
  total_aero_rewards : ℚ
  total_fees_usd : ℚ
  active_time_seconds : ℚ
  impermanent_loss_usd : ℚ
  profit_usd : ℚ
  xirr : Option ℚ
  deriving DecidableEq, Repr

/-- `calculatePositionStats`, assembled from the definitions above.  The
group is always nonempty when the code calls it; `rows[0].token_id || "unknown"`
is totalised with the same `"unknown"` default. -/
def calculatePositionStats (pw : ℚ → ℚ → ℚ) (rows : List AnalysisRow) : PositionStats where
  token_id :=
    match rows with
    | [] => "unknown"
    | r :: _ => if r.token_id = "" then "unknown" else r.token_id
  events_count := rows.length
  mint_count := (mintsOf rows).length
  first_mint_timestamp := (first_mintOf rows).map (fun m => m.timestamp)
  total_deposit_usdc := total_deposit_usdcOf rows
  total_deposit_cbbtc := total_deposit_cbbtcOf rows
  total_deposit_usd := total_deposit_usdOf rows
  btc_price_at_first_mint := btc_price_at_first_mintOf rows
  burn_count := (burnsOf rows).length
  first_burn_timestamp := (first_burnOf rows).map (fun b => b.timestamp)
  total_withdraw_usdc := total_withdraw_usdcOf rows
  total_withdraw_cbbtc := total_withdraw_cbbtcOf rows
  total_withdraw_usd := total_withdraw_usdOf rows
  btc_price_at_first_burn := btc_price_at_first_burnOf rows
  total_aero_rewards := total_aero_rewardsOf rows
  total_fees_usd := total_fees_usdOf rows
  active_time_seconds := active_time_secondsOf rows
  impermanent_loss_usd := impermanent_loss_usdOf rows
  profit_usd := profit_usdOf rows
  xirr := calculateXIRR pw (positionCashFlows rows)

/-! ## Grouping and wallet aggregation (`main` of the analysis step) -/

/-- Keep-first deduplication with an accumulator of already seen keys;
JavaScript `Map` insertion order keeps the first occurrence of each key. -/
def dedupKeepFirst : List String → List String → List String
  | [], _ => []
  | x :: xs, seen =>
    if x ∈ seen then dedupKeepFirst xs seen
    else x :: dedupKeepFirst xs (x :: seen)

/-- The distinct non-empty `token_id`s, in order of first occurrence — the
keys of the grouping map (rows without a `token_id` are skipped). -/
def tokenIdsOf (rows : List AnalysisRow) : List String :=
  dedupKeepFirst ((rows.map fun r => r.token_id).filter fun t => ¬t = "") []

/-- The rows grouped under one `token_id`, in original order. -/
def groupOf (rows : List AnalysisRow) (t : String) : List AnalysisRow :=
  rows.filter fun r => r.token_id = t

/-- The per-position statistics, one per distinct `token_id`. -/
def positionStatsListOf (pw : ℚ → ℚ → ℚ) (rows : List AnalysisRow) : List PositionStats :=
  (tokenIdsOf rows).map fun t => calculatePositionStats pw (groupOf rows t)

/-- `p.mint_count > 0 && p.burn_count > 0` — the Complete filter. -/
def completePositionsOf (pw : ℚ → ℚ → ℚ) (rows : List AnalysisRow) : List PositionStats :=
  (positionStatsListOf pw rows).filter fun p => 0 < p.mint_count ∧ 0 < p.burn_count

/-- The `token_id`s of the Complete positions (the membership set used to
filter rows). -/
def completeTokenIdsOf (pw : ℚ → ℚ → ℚ) (rows : List AnalysisRow) : List String :=
  (completePositionsOf pw rows).map fun p => p.token_id

/-- Rows kept for wallet-level statistics: rows without a `token_id` and
rows of Complete positions. -/
def rowsFromCompletePositionsOf (pw : ℚ → ℚ → ℚ) (rows : List AnalysisRow) :
    List AnalysisRow :=
  rows.filter fun r => r.token_id = "" ∨ r.token_id ∈ completeTokenIdsOf pw rows

/-- The wallet-level aggregate record (the fields `days_active`, `apr` and
the portfolio `xirr` of the source record are derived from the same two
inputs — the Complete positions and their rows — and are outside the scope
of the verified properties). -/
structure WalletStats where
  positions_count : ℕ
  events_count : ℕ
  total_deposit_usdc : ℚ
  total_deposit_cbbtc : ℚ
  total_withdraw_usdc : ℚ
  total_withdraw_cbbtc : ℚ
  avg_active_time_seconds : ℚ
  total_fees_usd : ℚ
  total_collected_aero_rewards : ℚ
  total_collected_aero_rewards_usd : ℚ
  total_impermanent_loss_usd : ℚ
  total_profit_usd : ℚ
  avg_capital_deployed_usd : ℚ
  deposit_value_usd : ℚ
  withdrawal_value_usd : ℚ
  deriving DecidableEq, Repr

/-- The wallet-level aggregation: sums over the Complete positions, the
rewards totals over the rows from Complete positions (which keep the rows
without a `token_id`), and the two `gauge_getReward` additions applied
after the record is first built. -/
def walletStatsOf (pw : ℚ → ℚ → ℚ) (rows : List AnalysisRow) : WalletStats :=
  let completePositions := completePositionsOf pw rows
  let rfc := rowsFromCompletePositionsOf pw rows
  let allAeroRewardsUsd := rfc.foldl (fun s r => s + r.AERO_usd) 0
  let totalDeposits := completePositions.foldl (fun s p => s + p.total_deposit_usd) 0
  let totalWithdrawals := completePositions.foldl (fun s p => s + p.total_withdraw_usd) 0
  let gaugeRewards :=
    (rfc.filter fun r => r.action = ActionKind.gauge_getReward).foldl
      (fun s r => s + r.reward) 0
  let gaugeRewardsUsd :=
    (rfc.filter fun r => r.action = ActionKind.gauge_getReward).foldl
      (fun s r => s + r.AERO_usd) 0
  { positions_count := completePositions.length
    events_count := rfc.length
    total_deposit_usdc := completePositions.foldl (fun s p => s + p.total_deposit_usdc) 0
    total_deposit_cbbtc := completePositions.foldl (fun s p => s + p.total_deposit_cbbtc) 0
    total_withdraw_usdc := completePositions.foldl (fun s p => s + p.total_withdraw_usdc) 0
    total_withdraw_cbbtc := completePositions.foldl (fun s p => s + p.total_withdraw_cbbtc) 0
    avg_active_time_seconds :=
      if 0 < completePositions.length then
        completePositions.foldl (fun s p => s + p.active_time_seconds) 0 /
          (completePositions.length : ℚ)
      else 0
    total_fees_usd := completePositions.foldl (fun s p => s + p.total_fees_usd) 0
    total_collected_aero_rewards :=
      completePositions.foldl (fun s p => s + p.total_aero_rewards) 0 + gaugeRewards
    total_collected_aero_rewards_usd := allAeroRewardsUsd
    total_impermanent_loss_usd :=
      completePositions.foldl (fun s p => s + p.impermanent_loss_usd) 0
    total_profit_usd :=
      completePositions.foldl (fun s p => s + p.profit_usd) 0 + gaugeRewardsUsd
    avg_capital_deployed_usd :=
      if 0 < completePositions.length then (totalDeposits + totalWithdrawals) / 2 else 0
    deposit_value_usd := totalDeposits
    withdrawal_value_usd := totalWithdrawals }

/-! ## Reward attribution (`main` of the processing step)

For a `gauge_getReward` action without a `token_id`, the processing loop
scans the neighbouring records at offsets `-5 … -1, 1 … 5` (in that order)
and takes the `token_id` of the first neighbour that shares the action's
exact timestamp and carries one. -/

/-- The filtered action records of the processing step; only the fields the
attribution heuristic reads are modelled.  Timestamps are the raw CSV
strings — the heuristic compares them for equality only. -/
structure ActionRow where
  timestamp : String
  action : ActionKind
  token_id : String
  deriving DecidableEq, Repr

/-- The offsets of the `for (let offset = -5; offset <= 5; offset++)` loop,
in iteration order, with `offset === 0` skipped. -/
def attributionOffsets : List ℤ := [-5, -4, -3, -2, -1, 1, 2, 3, 4, 5]

/-- The neighbour at `i + offset`, `none` when the index is out of range
(the code's `neighborIndex >= 0 && neighborIndex < filteredActions.length`). -/
def neighborAt (actions : List ActionRow) (j : ℤ) : Option ActionRow :=
  if 0 ≤ j then actions.get? j.toNat else none

/-- Whether the neighbour at offset `o` matches (same timestamp and a
non-empty `token_id`), and if so with which `token_id`. -/
def matchTok (actions : List ActionRow) (i : ℕ) (a : ActionRow) (o : ℤ) : Option String :=
  match neighborAt actions ((i : ℤ) + o) with
  | some nb => if nb.timestamp = a.timestamp ∧ ¬nb.token_id = "" then some nb.token_id else none
  | none => none

/-- The scan: take the first matching neighbour's `token_id` in offset
order, keeping the action's own (empty) `token_id` when none matches. -/
def inferTokenIdGo (actions : List ActionRow) (i : ℕ) (a : ActionRow) :
    List ℤ → String
  | [] => a.token_id
  | o :: os =>
    match neighborAt actions ((i : ℤ) + o) with
    | some nb =>
      if nb.timestamp = a.timestamp ∧ ¬nb.token_id = "" then nb.token_id
      else inferTokenIdGo actions i a os
    | none => inferTokenIdGo actions i a os

/-- The inferred `token_id` for a `gauge_getReward` action at position `i`
of the filtered action list. -/
def inferTokenId (actions : List ActionRow) (i : ℕ) (a : ActionRow) : String :=
  inferTokenIdGo actions i a attributionOffsets

/-! ## Specification-side formulations

Definitions written from the specification's wording, to be compared with
the implemented computations. -/

/-- The weighted-average exit price as the specification words it: the total
USD value withdrawn across all Burns minus the token-A component, divided by
total token-B withdrawn, falling back to the first burn's reference price
when total token-B withdrawn is zero. -/
def specWeightedAvgExitPrice (rows : List AnalysisRow) : ℚ :=
  if total_withdraw_cbbtcOf rows = 0 then btc_price_at_first_burnOf rows
  else (total_withdraw_usdOf rows - total_withdraw_usdcOf rows) / total_withdraw_cbbtcOf rows

/-- The HODL value at exit as the specification words it: total deposited
token-A plus total deposited token-B times the weighted-average exit price. -/
def specHodlValueAtExit (rows : List AnalysisRow) : ℚ :=
  total_deposit_usdcOf rows + total_deposit_cbbtcOf rows * specWeightedAvgExitPrice rows

/-- The position-level rewards total as the specification words it: the sum
of `reward_usd` over all of the position's actions except ClaimReward
actions that lack a position id. -/
def specPositionRewardsUsd (rows : List AnalysisRow) : ℚ :=
  ((rows.filter fun r => ¬(r.action = ActionKind.gauge_getReward ∧ r.token_id = "")).map
    fun r => r.AERO_usd).sum

/-! ## Concrete inputs

Closed inputs used to evaluate the embedding (as witnesses and
counterexamples). -/

/-- A trivial stand-in for `Math.pow` used when evaluating the embedding on
concrete inputs whose conclusions do not depend on the power function. -/
def pw0 : ℚ → ℚ → ℚ := fun _ _ => 1

/-- A Complete position with one mint, one fee collection and one burn. -/
def c5Rows : List AnalysisRow :=
  [⟨0, "9", ActionKind.mint, 50, 100, 1, 0, 0, 0, 100, 50, 0⟩,
   ⟨1000, "9", ActionKind.collect, 60, 0, 0, 10, 0, 0, 0, 0, 0⟩,
   ⟨2000, "9", ActionKind.burn, 60, 80, 1, 0, 0, 0, 80, 60, 0⟩]

/-- A Complete position with a `gauge_getReward` row that carries the
position's id (an attributed ClaimReward). -/
def c6Rows : List AnalysisRow :=
  [⟨0, "7", ActionKind.mint, 50, 0, 0, 0, 0, 0, 0, 0, 0⟩,
   ⟨1000, "7", ActionKind.burn, 50, 0, 0, 0, 0, 0, 0, 0, 0⟩,
   ⟨1000, "7", ActionKind.gauge_getReward, 50, 0, 0, 0, 0, 2, 0, 0, 5⟩]

/-- A Complete position with one mint and two burns at different prices. -/
def c4Rows : List AnalysisRow :=
  [⟨0, "5", ActionKind.mint, 50, 100, 2, 0, 0, 0, 100, 100, 0⟩,
   ⟨1000, "5", ActionKind.burn, 55, 40, 1, 0, 0, 0, 40, 55, 0⟩,
   ⟨2000, "5", ActionKind.burn, 60, 50, 1, 0, 0, 0, 50, 60, 0⟩]

/-- An Unclosed position: a single mint and no burn. -/
def c10Rows : List AnalysisRow :=
  [⟨0, "3", ActionKind.mint, 50, 10, 1, 0, 0, 0, 10, 50, 0⟩]

/-- A filtered action log in which the `gauge_getReward` at index `5` has
two same-timestamp neighbours carrying ids: index `0` (offset `-5`, id `A`)
and index `4` (offset `-1`, id `B`, the nearest). -/
def c7Actions : List ActionRow :=
  [⟨"T", ActionKind.mint, "A"⟩,
   ⟨"U", ActionKind.collect, ""⟩,
   ⟨"U", ActionKind.collect, ""⟩,
   ⟨"U", ActionKind.collect, ""⟩,
   ⟨"T", ActionKind.mint, "B"⟩,
   ⟨"T", ActionKind.gauge_getReward, ""⟩]

/-- The `gauge_getReward` record at index `5` of `c7Actions`. -/
def c7Gauge : ActionRow := ⟨"T", ActionKind.gauge_getReward, ""⟩

/-- A single unattributed `gauge_getReward` analysis row (empty `token_id`). -/
def c7Row : AnalysisRow := ⟨0, "", ActionKind.gauge_getReward, 1, 0, 0, 0, 0, 3, 0, 0, 6⟩

/-- A one-row analysis log holding only the unattributed reward row. -/
def c7RowList : List AnalysisRow := [c7Row]

/-- The swap cache of the specification's worked example: keys
`(100,1)`, `(105,2)`, `(110,3)`. -/
def exSwapCache : List SwapEvent :=
  [⟨100, 1, 0⟩, ⟨105, 2, 0⟩, ⟨110, 3, 0⟩]

/-- A wallet log with one Complete position (`"1"`, mint and burn) and one
Unclosed position (`"2"`, mint only). -/
def c3Rows : List AnalysisRow :=
  [⟨0, "1", ActionKind.mint, 50, 100, 1, 0, 0, 0, 100, 50, 0⟩,
   ⟨1000, "2", ActionKind.mint, 50, 30, 1, 0, 0, 0, 30, 50, 0⟩,
   ⟨2000, "1", ActionKind.burn, 60, 90, 1, 0, 0, 0, 90, 60, 0⟩]

/-- Two cash flows: `-1000` at day `0` and `+1100` at day `365`
(in epoch milliseconds). -/
def c9Flows : List CashFlow :=
  [⟨0, -1000⟩, ⟨31536000000, 1100⟩]

/-- The same two cash flows in the opposite order. -/
def c9FlowsPerm : List CashFlow :=
  [⟨31536000000, 1100⟩, ⟨0, -1000⟩]

/-! # Theorems -/

/-! ## Generic list helpers -/

theorem foldl_add_eq {α : Type} (f : α → ℚ) :
    ∀ (l : List α) (init : ℚ), l.foldl (fun s x => s + f x) init = init + (l.map f).sum
  | [], init => by simp
  | x :: xs, init => by
    simp only [List.foldl_cons, List.map_cons, List.sum_cons, foldl_add_eq f xs]
    ring

theorem sum_filter_not_add_sum_filter {α : Type} (p : α → Prop) [DecidablePred p]
    (f : α → ℚ) :
    ∀ l : List α,
      ((l.filter fun x => ¬p x).map f).sum + ((l.filter fun x => p x).map f).sum =
        (l.map f).sum
  | [] => by simp
  | x :: xs => by
    have ih := sum_filter_not_add_sum_filter p f xs
    simp only [decide_not] at ih
    by_cases hx : p x <;> simp [hx, List.filter_cons] <;> linarith [ih]

/-! ## Facts about the position-statistics internals -/

theorem first_mintOf_isSome {rows : List AnalysisRow}
    (h : ∃ r ∈ rows, r.action = ActionKind.mint) :
    ∃ m, first_mintOf rows = some m := by
  obtain ⟨r, hr, ha⟩ := h
  have hmem : r ∈ mintsOf rows := by
    unfold mintsOf
    rw [List.mem_insertionSort, List.mem_filter]
    exact ⟨hr, by simp [ha]⟩
  rcases hq : mintsOf rows with _ | ⟨m, l⟩
  · rw [hq] at hmem; cases hmem
  · exact ⟨m, by unfold first_mintOf; rw [hq]; rfl⟩

theorem first_burnOf_isSome {rows : List AnalysisRow}
    (h : ∃ r ∈ rows, r.action = ActionKind.burn) :
    ∃ b, first_burnOf rows = some b := by
  obtain ⟨r, hr, ha⟩ := h
  have hmem : r ∈ burnsOf rows := by
    unfold burnsOf
    rw [List.mem_insertionSort, List.mem_filter]
    exact ⟨hr, by simp [ha]⟩
  rcases hq : burnsOf rows with _ | ⟨b, l⟩
  · rw [hq] at hmem; cases hmem
  · exact ⟨b, by unfold first_burnOf; rw [hq]; rfl⟩

theorem burnsOf_length_pos {rows : List AnalysisRow}
    (h : ∃ r ∈ rows, r.action = ActionKind.burn) :
    0 < (burnsOf rows).length := by
  obtain ⟨b, hb⟩ := first_burnOf_isSome h
  unfold first_burnOf at hb
  rcases hq : burnsOf rows with _ | ⟨x, l⟩
  · rw [hq] at hb; cases hb
  · simp

/-! ## C4: the impermanent-loss formula -/

/-- C4: for every Complete position (at least one mint and one burn) whose
total withdrawn token-B amount is nonnegative, the computed impermanent loss
equals `withdraw_usd - hodlValueAtExit`, where `hodlValueAtExit` combines the
total deposited token-A, the total deposited token-B and the weighted-average
exit price, the latter falling back to the first burn's reference price when
no token-B was withdrawn — for any number of mints and burns. -/
theorem impermanentLoss_formula (pw : ℚ → ℚ → ℚ) (rows : List AnalysisRow)
    (hm : ∃ r ∈ rows, r.action = ActionKind.mint)
    (hb : ∃ r ∈ rows, r.action = ActionKind.burn)
    (hw : 0 ≤ total_withdraw_cbbtcOf rows) :
    (calculatePositionStats pw rows).impermanent_loss_usd =
      total_withdraw_usdOf rows - specHodlValueAtExit rows := by
  obtain ⟨m, hm'⟩ := first_mintOf_isSome hm
  obtain ⟨b, hb'⟩ := first_burnOf_isSome hb
  have hlen := burnsOf_length_pos hb
  have hhodl : hodlValueAtExitUSDOf rows = specHodlValueAtExit rows := by
    unfold hodlValueAtExitUSDOf specHodlValueAtExit avgExitPriceOf specWeightedAvgExitPrice
    rcases lt_or_eq_of_le hw with hpos | hzero
    · rw [if_pos hpos, if_neg (ne_of_gt hpos)]
    · rw [if_neg (by rw [← hzero]; exact lt_irrefl 0), if_pos hzero.symm]
  show impermanent_loss_usdOf rows = _
  unfold impermanent_loss_usdOf
  simp only [hm', hb']
  rw [if_pos hlen, hhodl]

/-- Witness for C4 at a position with one mint and two burns. -/
theorem impermanentLoss_formula_witness :
    (∃ r ∈ c4Rows, r.action = ActionKind.mint) ∧
    (∃ r ∈ c4Rows, r.action = ActionKind.burn) ∧
    0 ≤ total_withdraw_cbbtcOf c4Rows ∧
    (calculatePositionStats pw0 c4Rows).impermanent_loss_usd =
      total_withdraw_usdOf c4Rows - specHodlValueAtExit c4Rows :=
  have hw : 0 ≤ total_withdraw_cbbtcOf c4Rows := by
    simp [total_withdraw_cbbtcOf, burnsOf, c4Rows, List.insertionSort,
      List.orderedInsert, List.filter_cons, List.filter_nil, tsLe]
  ⟨by decide, by decide, hw,
    impermanentLoss_formula pw0 c4Rows (by decide) (by decide) hw⟩

/-! ## C5: the profit decomposition -/

/-- C5, counterexample: on a Complete position with a nonzero collected fee
the claimed identity
`profit = impermanentLoss + (hodlValueAtExit - hodlValueAtDeposit) + fees + rewards`
fails: the computed profit is `-10` while the right-hand side is `0`. -/
theorem profit_decomposition_fails_with_fees :
    ¬((calculatePositionStats pw0 c5Rows).profit_usd =
      (calculatePositionStats pw0 c5Rows).impermanent_loss_usd +
        (hodlValueAtExitUSDOf c5Rows - hodlValueAtDepositUSDOf c5Rows) +
        (calculatePositionStats pw0 c5Rows).total_fees_usd +
        total_aero_rewards_usdOf c5Rows) := by
  simp [calculatePositionStats, profit_usdOf, impermanent_loss_usdOf,
    hodlValueAtExitUSDOf, hodlValueAtDepositUSDOf, avgExitPriceOf,
    total_withdraw_usdOf, total_withdraw_usdcOf, total_withdraw_cbbtcOf,
    total_deposit_usdcOf, total_deposit_cbbtcOf, total_deposit_usdOf,
    total_fees_usdOf, total_aero_rewards_usdOf, btc_price_at_first_burnOf,
    first_mintOf, first_burnOf, mintsOf, burnsOf, collectsOf,
    List.insertionSort, List.orderedInsert, List.filter_cons, List.filter_nil,
    tsLe, c5Rows]
  norm_num

/-- C5 as amended: for every Complete position the computed profit satisfies
`profit = impermanentLoss + (hodlValueAtExit - hodlValueAtDeposit) + rewards`
exactly — collected fees are not part of the computed profit. -/
theorem profit_decomposition_sans_fees (pw : ℚ → ℚ → ℚ) (rows : List AnalysisRow)
    (hm : ∃ r ∈ rows, r.action = ActionKind.mint)
    (hb : ∃ r ∈ rows, r.action = ActionKind.burn) :
    (calculatePositionStats pw rows).profit_usd =
      (calculatePositionStats pw rows).impermanent_loss_usd +
        (hodlValueAtExitUSDOf rows - hodlValueAtDepositUSDOf rows) +
        total_aero_rewards_usdOf rows := by
  obtain ⟨m, hm'⟩ := first_mintOf_isSome hm
  obtain ⟨b, hb'⟩ := first_burnOf_isSome hb
  have hlen := burnsOf_length_pos hb
  show profit_usdOf rows = impermanent_loss_usdOf rows + _ + _
  unfold profit_usdOf impermanent_loss_usdOf
  rw [hm', hb']
  simp only [hlen, if_pos]
  ring

/-- Witness for the amended C5 at the concrete fee-collecting position. -/
theorem profit_decomposition_sans_fees_witness :
    (∃ r ∈ c5Rows, r.action = ActionKind.mint) ∧
    (∃ r ∈ c5Rows, r.action = ActionKind.burn) ∧
    (calculatePositionStats pw0 c5Rows).profit_usd =
      (calculatePositionStats pw0 c5Rows).impermanent_loss_usd +
        (hodlValueAtExitUSDOf c5Rows - hodlValueAtDepositUSDOf c5Rows) +
        total_aero_rewards_usdOf c5Rows :=
  ⟨by decide, by decide, profit_decomposition_sans_fees pw0 c5Rows (by decide) (by decide)⟩

/-! ## C6: position-level rewards and attributed ClaimRewards -/

/-- C6, counterexample: a `gauge_getReward` row carrying the position's own
id contributes `5` to the specification's rewards total but nothing to the
computed one — the computed total and the claimed total differ. -/
theorem positionRewards_exclude_attributed_claim :
    total_aero_rewards_usdOf c6Rows = 0 ∧ specPositionRewardsUsd c6Rows = 5 ∧
      total_aero_rewards_usdOf c6Rows ≠ specPositionRewardsUsd c6Rows := by
  refine ⟨?_, ?_, ?_⟩ <;>
    simp [total_aero_rewards_usdOf, specPositionRewardsUsd, c6Rows,
      List.filter_cons, List.filter_nil]

/-- C6 as amended: the position-level rewards totals sum over all of the
position's actions except ClaimReward (`gauge_getReward`) actions — every
ClaimReward row is excluded, attributed or not, so exactly the ClaimReward
rows' rewards separate the position total from the all-rows total. -/
theorem positionRewards_exclude_all_claims (pw : ℚ → ℚ → ℚ) (rows : List AnalysisRow) :
    total_aero_rewards_usdOf rows +
        ((rows.filter fun r => r.action = ActionKind.gauge_getReward).map
          fun r => r.AERO_usd).sum =
      ((rows.map fun r => r.AERO_usd)).sum ∧
    (calculatePositionStats pw rows).total_aero_rewards +
        ((rows.filter fun r => r.action = ActionKind.gauge_getReward).map
          fun r => r.reward).sum =
      ((rows.map fun r => r.reward)).sum := by
  constructor
  · unfold total_aero_rewards_usdOf
    rw [foldl_add_eq, zero_add]
    exact sum_filter_not_add_sum_filter _ _ rows
  · show total_aero_rewardsOf rows + _ = _
    unfold total_aero_rewardsOf
    rw [foldl_add_eq, zero_add]
    exact sum_filter_not_add_sum_filter _ _ rows

/-! ## C10: incomplete positions get zero derived metrics -/

/-- C10: for every nonempty action group lacking a mint or lacking a burn,
the returned profit, impermanent loss and active time are exactly `0`,
while the deposit, withdrawal, fee and reward totals are still computed
from the actions present. -/
theorem incomplete_position_zeros (pw : ℚ → ℚ → ℚ) (rows : List AnalysisRow)
    (_hne : rows ≠ [])
    (h : (∀ r ∈ rows, ¬r.action = ActionKind.mint) ∨
         (∀ r ∈ rows, ¬r.action = ActionKind.burn)) :
    ((calculatePositionStats pw rows).profit_usd = 0 ∧
     (calculatePositionStats pw rows).impermanent_loss_usd = 0 ∧
     (calculatePositionStats pw rows).active_time_seconds = 0) ∧
    (calculatePositionStats pw rows).total_deposit_usdc =
      (((rows.filter fun r => r.action = ActionKind.mint).map fun r => r.amount0_dec)).sum ∧
    (calculatePositionStats pw rows).total_deposit_cbbtc =
      (((rows.filter fun r => r.action = ActionKind.mint).map fun r => r.amount1_dec)).sum ∧
    (calculatePositionStats pw rows).total_withdraw_usdc =
      (((rows.filter fun r => r.action = ActionKind.burn).map fun r => r.amount0_dec)).sum ∧
    (calculatePositionStats pw rows).total_withdraw_cbbtc =
      (((rows.filter fun r => r.action = ActionKind.burn).map fun r => r.amount1_dec)).sum ∧
    (calculatePositionStats pw rows).total_fees_usd =
      (((rows.filter fun r => r.action = ActionKind.collect).map
        fun c => c.fee0_dec + c.fee1_dec * c.cbBTC_price)).sum ∧
    (calculatePositionStats pw rows).total_aero_rewards =
      (((rows.filter fun r => ¬r.action = ActionKind.gauge_getReward).map
        fun r => r.reward)).sum := by
  have hnone :
      first_mintOf rows = none ∨ first_burnOf rows = none := by
    rcases h with h | h
    · left
      unfold first_mintOf mintsOf
      rw [List.head?_eq_none_iff]
      have : rows.filter (fun r => decide (r.action = ActionKind.mint)) = [] := by
        rw [List.filter_eq_nil_iff]
        intro a ha
        simpa using h a ha
      rw [this]
      rfl
    · right
      unfold first_burnOf burnsOf
      rw [List.head?_eq_none_iff]
      have : rows.filter (fun r => decide (r.action = ActionKind.burn)) = [] := by
        rw [List.filter_eq_nil_iff]
        intro a ha
        simpa using h a ha
      rw [this]
      rfl
  refine ⟨⟨?_, ?_, ?_⟩, ?_, ?_, ?_, ?_, ?_, ?_⟩
  · show profit_usdOf rows = 0
    unfold profit_usdOf
    rcases hnone with h' | h'
    · simp [h']
    · rcases hfm : first_mintOf rows with _ | m <;> simp [hfm, h']
  · show impermanent_loss_usdOf rows = 0
    unfold impermanent_loss_usdOf
    rcases hnone with h' | h'
    · simp [h']
    · rcases hfm : first_mintOf rows with _ | m <;> simp [hfm, h']
  · show active_time_secondsOf rows = 0
    unfold active_time_secondsOf
    rcases hnone with h' | h'
    · simp [h']
    · rcases hfm : first_mintOf rows with _ | m <;> simp [hfm, h']
  · show total_deposit_usdcOf rows = _
    unfold total_deposit_usdcOf mintsOf
    rw [foldl_add_eq, zero_add]
    exact ((List.perm_insertionSort tsLe _).map _).sum_eq
  · show total_deposit_cbbtcOf rows = _
    unfold total_deposit_cbbtcOf mintsOf
    rw [foldl_add_eq, zero_add]
    exact ((List.perm_insertionSort tsLe _).map _).sum_eq
  · show total_withdraw_usdcOf rows = _
    unfold total_withdraw_usdcOf burnsOf
    rw [foldl_add_eq, zero_add]
    exact ((List.perm_insertionSort tsLe _).map _).sum_eq
  · show total_withdraw_cbbtcOf rows = _
    unfold total_withdraw_cbbtcOf burnsOf
    rw [foldl_add_eq, zero_add]
    exact ((List.perm_insertionSort tsLe _).map _).sum_eq
  · show total_fees_usdOf rows = _
    unfold total_fees_usdOf collectsOf
    rw [foldl_add_eq, zero_add]
  · show total_aero_rewardsOf rows = _
    unfold total_aero_rewardsOf
    rw [foldl_add_eq, zero_add]

/-- Witness for C10 at a single-mint (Unclosed) group. -/
theorem incomplete_position_zeros_witness :
    c10Rows ≠ [] ∧
    (∀ r ∈ c10Rows, ¬r.action = ActionKind.burn) ∧
    (calculatePositionStats pw0 c10Rows).profit_usd = 0 ∧
    (calculatePositionStats pw0 c10Rows).impermanent_loss_usd = 0 ∧
    (calculatePositionStats pw0 c10Rows).active_time_seconds = 0 :=
  have h := incomplete_position_zeros pw0 c10Rows (by decide) (Or.inr (by decide))
  ⟨by decide, by decide, h.1.1, h.1.2.1, h.1.2.2⟩

/-! ## C7: the neighbour-window reward attribution -/

theorem inferTokenIdGo_eq (actions : List ActionRow) (i : ℕ) (a : ActionRow) :
    ∀ os : List ℤ,
      inferTokenIdGo actions i a os =
        (os.filterMap (matchTok actions i a)).headD a.token_id
  | [] => rfl
  | o :: os => by
    have ih := inferTokenIdGo_eq actions i a os
    have hgo : inferTokenIdGo actions i a (o :: os) =
        match matchTok actions i a o with
        | some tid => tid
        | none => inferTokenIdGo actions i a os := by
      show (match neighborAt actions ((i : ℤ) + o) with
            | some nb =>
              if nb.timestamp = a.timestamp ∧ ¬nb.token_id = "" then nb.token_id
              else inferTokenIdGo actions i a os
            | none => inferTokenIdGo actions i a os) = _
      unfold matchTok
      rcases neighborAt actions ((i : ℤ) + o) with _ | nb
      · rfl
      · by_cases hc : nb.timestamp = a.timestamp ∧ ¬nb.token_id = ""
        · simp only [if_pos hc]
        · simp only [if_neg hc]
    rw [List.filterMap_cons]
    rcases hmt : matchTok actions i a o with _ | tid
    · rw [hgo, hmt]
      exact ih
    · rw [hgo, hmt]
      rfl

/-- C7, counterexample: the scan is not nearest-first.  At index `5` of
`c7Actions` both the record five back (id `A`) and the record one back
(id `B`) share the timestamp; the code attributes `A`, the id of the
farthest preceding match, while the nearest matching record carries `B`. -/
theorem attribution_not_nearest :
    inferTokenId c7Actions 5 c7Gauge = "A" ∧
    matchTok c7Actions 5 c7Gauge (-1) = some "B" ∧
    matchTok c7Actions 5 c7Gauge (-5) = some "A" ∧
    ("A" : String) ≠ "B" := by
  refine ⟨?_, ?_, ?_, ?_⟩ <;> decide

/-- C7 as amended: the inferred id is the first match in the scan order
`-5, -4, …, -1, 1, …, 5` (farthest-first among the preceding records, then
nearest-first among the following ones), the action staying unattributed
(empty id) when no record in the window shares its timestamp and carries an
id; and an unattributed reward row is still kept among the rows feeding the
wallet-level reward totals. -/
theorem attribution_scan_order (actions : List ActionRow) (i : ℕ) (a : ActionRow)
    (ha : a.token_id = "") :
    inferTokenId actions i a =
      ((attributionOffsets.filterMap (matchTok actions i a)).headD "") ∧
    (∀ (pw : ℚ → ℚ → ℚ) (rows : List AnalysisRow) (r : AnalysisRow),
      r ∈ rows → r.token_id = "" → r ∈ rowsFromCompletePositionsOf pw rows) := by
  constructor
  · rw [inferTokenId, inferTokenIdGo_eq, ha]
  · intro pw rows r hr htid
    unfold rowsFromCompletePositionsOf
    rw [List.mem_filter]
    exact ⟨hr, by simp [htid]⟩

/-- Witness for the amended C7: the concrete attribution at `c7Actions`
and the concrete unattributed reward row kept for wallet totals. -/
theorem attribution_scan_order_witness :
    (c7Gauge.token_id = "" ∧
      inferTokenId c7Actions 5 c7Gauge =
        ((attributionOffsets.filterMap (matchTok c7Actions 5 c7Gauge)).headD "")) ∧
    (c7Row ∈ c7RowList ∧ c7Row.token_id = "" ∧
      c7Row ∈ rowsFromCompletePositionsOf pw0 c7RowList) :=
  have h := attribution_scan_order c7Actions 5 c7Gauge (by decide)
  ⟨⟨by decide, h.1⟩,
    ⟨List.mem_cons_self _ _, rfl, h.2 pw0 c7RowList c7Row (List.mem_cons_self _ _) rfl⟩⟩

/-! ## C2: the swap-cache nearest-before / nearest-after searches -/

theorem swapKeyLt_trans {a b c : SwapEvent} (h1 : swapKeyLt a b) (h2 : swapKeyLt b c) :
    swapKeyLt a c := by
  simp only [swapKeyLt] at *
  omega

theorem beforeQuery_true_iff {s : SwapEvent} {b l : ℕ} :
    beforeQuery s b l = true ↔ s.blockNumber < b ∨ (s.blockNumber = b ∧ s.index < l) := by
  simp [beforeQuery]

theorem afterQuery_true_iff {s : SwapEvent} {b l : ℕ} :
    afterQuery s b l = true ↔ b < s.blockNumber ∨ (s.blockNumber = b ∧ l < s.index) := by
  simp [afterQuery]

theorem not_beforeQuery_of_lt {s t : SwapEvent} {b l : ℕ}
    (hs : ¬beforeQuery s b l = true) (hlt : swapKeyLt s t) :
    ¬beforeQuery t b l = true := by
  rw [beforeQuery_true_iff] at *
  simp only [swapKeyLt] at hlt
  omega

/-- The break-early loop equals a fold over the `takeWhile` prefix. -/
theorem findBeforeAux_eq_takeWhile (b l : ℕ) :
    ∀ (swaps : List SwapEvent) (acc : Option SwapEvent),
      findBeforeAux b l swaps acc =
        (swaps.takeWhile fun s => beforeQuery s b l).foldl (fun _ s => some s) acc
  | [], _ => rfl
  | s :: rest, acc => by
    rw [List.takeWhile_cons]
    unfold findBeforeAux
    by_cases hb : beforeQuery s b l = true
    · rw [if_pos hb, if_pos hb, List.foldl_cons]
      exact findBeforeAux_eq_takeWhile b l rest (some s)
    · rw [if_neg hb, if_neg hb]
      rfl

/-- On a strictly sorted cache the `takeWhile` prefix of before-the-query
swaps is the whole set of them. -/
theorem takeWhile_before_eq_filter {b l : ℕ} :
    ∀ {swaps : List SwapEvent}, swaps.Pairwise swapKeyLt →
      (swaps.takeWhile fun s => beforeQuery s b l) =
        (swaps.filter fun s => beforeQuery s b l)
  | [], _ => rfl
  | s :: rest, hp => by
    obtain ⟨ha, hrest⟩ := List.pairwise_cons.mp hp
    rw [List.takeWhile_cons, List.filter_cons]
    by_cases hb : beforeQuery s b l = true
    · rw [if_pos hb, if_pos hb, takeWhile_before_eq_filter hrest]
    · rw [if_neg hb, if_neg hb]
      rw [eq_comm, List.filter_eq_nil_iff]
      intro t ht
      exact not_beforeQuery_of_lt hb (ha t ht)

/-- The max-picking fold over a sorted list just keeps the last element:
auxiliary form with a seed below every list element. -/
theorem maxpick_foldl_sorted_aux :
    ∀ (L : List SwapEvent) (t : SwapEvent), (∀ u ∈ L, swapKeyLt t u) →
      L.Pairwise swapKeyLt →
      L.foldl
        (fun acc s =>
          match acc with
          | none => some s
          | some t' => if swapKeyLt t' s then some s else some t')
        (some t) =
      L.foldl (fun _ s => some s) (some t)
  | [], _, _, _ => rfl
  | u :: L, t, hbelow, hp => by
    obtain ⟨hu, hL⟩ := List.pairwise_cons.mp hp
    rw [List.foldl_cons, List.foldl_cons]
    rw [show (match some t with
        | none => some u
        | some t' => if swapKeyLt t' u then some u else some t') = some u from
      if_pos (hbelow u (List.mem_cons_self u L))]
    exact maxpick_foldl_sorted_aux L u hu hL

theorem maxpick_foldl_sorted {L : List SwapEvent} (hp : L.Pairwise swapKeyLt) :
    L.foldl
      (fun acc s =>
        match acc with
        | none => some s
        | some t' => if swapKeyLt t' s then some s else some t')
      none =
    L.foldl (fun _ s => some s) none := by
  cases L with
  | nil => rfl
  | cons s rest =>
    obtain ⟨hs, hrest⟩ := List.pairwise_cons.mp hp
    rw [List.foldl_cons, List.foldl_cons]
    exact maxpick_foldl_sorted_aux rest s hs hrest

/-- The min-picking fold over a sorted list keeps the seed when the seed is
below every list element. -/
theorem minpick_foldl_sorted_aux :
    ∀ (L : List SwapEvent) (t : SwapEvent), (∀ u ∈ L, swapKeyLt t u) →
      L.foldl
        (fun acc s =>
          match acc with
          | none => some s
          | some t' => if swapKeyLt s t' then some s else some t')
        (some t) =
      some t
  | [], _, _ => rfl
  | u :: L, t, hbelow => by
    rw [List.foldl_cons]
    have hne : ¬swapKeyLt u t := by
      intro h
      have := swapKeyLt_trans (hbelow u (List.mem_cons_self u L)) h
      simp only [swapKeyLt] at this
      omega
    rw [show (match some t with
        | none => some u
        | some t' => if swapKeyLt u t' then some u else some t') = some t from if_neg hne]
    exact minpick_foldl_sorted_aux L t fun v hv => hbelow v (List.mem_cons_of_mem u hv)

/-- The first-match loop of the after search equals the head of the filter. -/
theorem findAfter_eq_filter_head :
    ∀ (swaps : List SwapEvent) (b l : ℕ),
      findClosestSwapAfterFromCache swaps b l =
        ((swaps.filter fun s => afterQuery s b l)).head?
  | [], _, _ => rfl
  | s :: rest, b, l => by
    unfold findClosestSwapAfterFromCache
    rw [List.filter_cons]
    by_cases ha : afterQuery s b l = true
    · rw [if_pos ha, if_pos ha]
      rfl
    · rw [if_neg ha, if_neg ha]
      exact findAfter_eq_filter_head rest b l

/-- The last-keeping fold from `none` yields `none` only on the empty list. -/
theorem lastfold_eq_none_iff :
    ∀ (L : List SwapEvent), (L.foldl (fun _ s => some s) (none : Option SwapEvent)) = none ↔
      L = [] := by
  have hsome : ∀ (L : List SwapEvent) (x : SwapEvent),
      L.foldl (fun _ s => some s) (some x) ≠ none := by
    intro L
    induction L with
    | nil => intro x h; cases h
    | cons u L ih => intro x; rw [List.foldl_cons]; exact ih u
  intro L
  cases L with
  | nil => simp
  | cons s rest =>
    rw [List.foldl_cons]
    exact ⟨fun h => absurd h (hsome rest s), fun h => by cases h⟩

/-- The last-keeping fold from `none` lands on a member that every member
reaches (is equal to or sorted below). -/
theorem lastfold_spec :
    ∀ (L : List SwapEvent), L.Pairwise swapKeyLt →
      ∀ (acc : Option SwapEvent) (s : SwapEvent),
        L.foldl (fun _ s => some s) acc = some s →
        (L = [] ∧ acc = some s) ∨ (s ∈ L ∧ ∀ t ∈ L, t = s ∨ swapKeyLt t s)
  | [], _, acc, s, h => Or.inl ⟨rfl, h⟩
  | a :: rest, hp, acc, s, h => by
    obtain ⟨ha, hrest⟩ := List.pairwise_cons.mp hp
    rw [List.foldl_cons] at h
    rcases lastfold_spec rest hrest (some a) s h with ⟨hnil, heq⟩ | ⟨hmem, hbound⟩
    · right
      obtain rfl : a = s := Option.some.inj heq
      subst hnil
      exact ⟨List.mem_cons_self a [], by
        intro t ht
        rcases List.mem_cons.mp ht with rfl | ht'
        · exact Or.inl rfl
        · cases ht'⟩
    · right
      refine ⟨List.mem_cons_of_mem a hmem, ?_⟩
      intro t ht
      rcases List.mem_cons.mp ht with rfl | ht'
      · exact Or.inr (ha s hmem)
      · exact hbound t ht'

/-- C2: on a strictly sorted swap cache, for every query key, the
nearest-before search returns the swap with the greatest key strictly below
the query (none when no key is strictly below), the nearest-after search
returns the swap with the smallest key strictly above the query (none when
no key is strictly above), and both coincide with the order-insensitive
brute-force scans over the same cache. -/
theorem findClosestSwap_correct (swaps : List SwapEvent) (block logIndex : ℕ)
    (hs : swaps.Pairwise swapKeyLt) :
    (findClosestSwapBeforeFromCache swaps block logIndex =
      bruteNearestBefore swaps block logIndex) ∧
    (findClosestSwapAfterFromCache swaps block logIndex =
      bruteNearestAfter swaps block logIndex) ∧
    (∀ s, findClosestSwapBeforeFromCache swaps block logIndex = some s →
      s ∈ swaps ∧ beforeQuery s block logIndex = true ∧
        ∀ t ∈ swaps, beforeQuery t block logIndex = true → t = s ∨ swapKeyLt t s) ∧
    (findClosestSwapBeforeFromCache swaps block logIndex = none ↔
      ∀ t ∈ swaps, ¬beforeQuery t block logIndex = true) ∧
    (∀ s, findClosestSwapAfterFromCache swaps block logIndex = some s →
      s ∈ swaps ∧ afterQuery s block logIndex = true ∧
        ∀ t ∈ swaps, afterQuery t block logIndex = true → t = s ∨ swapKeyLt s t) ∧
    (findClosestSwapAfterFromCache swaps block logIndex = none ↔
      ∀ t ∈ swaps, ¬afterQuery t block logIndex = true) := by
  have hfilterB : ((swaps.filter fun s => beforeQuery s block logIndex)).Pairwise swapKeyLt :=
    hs.filter _
  have hfilterA : ((swaps.filter fun s => afterQuery s block logIndex)).Pairwise swapKeyLt :=
    hs.filter _
  have hbefore : findClosestSwapBeforeFromCache swaps block logIndex =
      ((swaps.filter fun s => beforeQuery s block logIndex)).foldl (fun _ s => some s) none := by
    rw [findClosestSwapBeforeFromCache, findBeforeAux_eq_takeWhile,
      takeWhile_before_eq_filter hs]
  have hafter := findAfter_eq_filter_head swaps block logIndex
  refine ⟨?_, ?_, ?_, ?_, ?_, ?_⟩
  · rw [hbefore, bruteNearestBefore, maxpick_foldl_sorted hfilterB]
  · rw [hafter, bruteNearestAfter]
    rcases hq : swaps.filter fun s => afterQuery s block logIndex with _ | ⟨a, rest⟩
    · rfl
    · rw [hq] at hfilterA
      obtain ⟨hhead, hrest⟩ := List.pairwise_cons.mp hfilterA
      rw [List.foldl_cons]
      exact (minpick_foldl_sorted_aux rest a hhead).symm
  · intro s h
    rw [hbefore] at h
    rcases lastfold_spec _ hfilterB none s h with ⟨_, heq⟩ | ⟨hmem, hbound⟩
    · cases heq
    · obtain ⟨hmem', hbq⟩ := List.mem_filter.mp hmem
      refine ⟨hmem', hbq, ?_⟩
      intro t ht htq
      exact hbound t (List.mem_filter.mpr ⟨ht, htq⟩)
  · rw [hbefore, lastfold_eq_none_iff, List.filter_eq_nil_iff]
  · intro s h
    rw [hafter] at h
    rcases hq : swaps.filter fun u => afterQuery u block logIndex with _ | ⟨a, rest⟩
    · rw [hq] at h; cases h
    · rw [hq] at h
      have has : a = s := Option.some.inj h
      rw [hq] at hfilterA
      obtain ⟨hhead, _⟩ := List.pairwise_cons.mp hfilterA
      have hmem : s ∈ swaps.filter fun u => afterQuery u block logIndex := by
        rw [hq, ← has]
        exact List.mem_cons_self a rest
      obtain ⟨hmem', haq⟩ := List.mem_filter.mp hmem
      refine ⟨hmem', haq, ?_⟩
      intro t ht htq
      have hmt : t ∈ swaps.filter fun u => afterQuery u block logIndex :=
        List.mem_filter.mpr ⟨ht, htq⟩
      rw [hq] at hmt
      rcases List.mem_cons.mp hmt with rfl | ht'
      · exact Or.inl has
      · have hlt := hhead t ht'
        rw [has] at hlt
        exact Or.inr hlt
  · rw [hafter, List.head?_eq_none_iff, List.filter_eq_nil_iff]

/-- Witness for C2 at the specification's worked example: query `(103,5)`
over keys `(100,1)`, `(105,2)`, `(110,3)`. -/
theorem findClosestSwap_correct_witness :
    List.Pairwise swapKeyLt exSwapCache ∧
    findClosestSwapBeforeFromCache exSwapCache 103 5 = bruteNearestBefore exSwapCache 103 5 ∧
    findClosestSwapBeforeFromCache exSwapCache 103 5 = some ⟨100, 1, 0⟩ ∧
    findClosestSwapAfterFromCache exSwapCache 103 5 = some ⟨105, 2, 0⟩ :=
  ⟨by decide, (findClosestSwap_correct exSwapCache 103 5 (by decide)).1,
    by decide, by decide⟩

/-! ## C9: permutation invariance of the XIRR solver

In the embedding all arithmetic is exact, so reordering the input cash
flows — which only permutes equal-date blocks of the sorted list and the
order of the summations — cannot change any intermediate value. -/

theorem sortCashFlows_perm (flows : List CashFlow) : (sortCashFlows flows).Perm flows :=
  List.perm_insertionSort dateLe flows

theorem sortCashFlows_sorted (flows : List CashFlow) :
    (sortCashFlows flows).Pairwise dateLe :=
  List.sorted_insertionSort dateLe flows

theorem any_congr_of_perm {l₁ l₂ : List CashFlow} (h : l₁.Perm l₂) (p : CashFlow → Bool) :
    l₁.any p = l₂.any p := by
  cases hb : l₂.any p
  · rw [Bool.eq_false_iff]
    intro hc
    obtain ⟨x, hx, hpx⟩ := List.any_eq_true.mp hc
    rw [Bool.eq_false_iff] at hb
    exact hb (List.any_eq_true.mpr ⟨x, h.subset hx, hpx⟩)
  · obtain ⟨x, hx, hpx⟩ := List.any_eq_true.mp hb
    exact List.any_eq_true.mpr ⟨x, h.symm.subset hx, hpx⟩

theorem xirrFirstDate_perm {l₁ l₂ : List CashFlow} (h : l₁.Perm l₂) :
    xirrFirstDate l₁ = xirrFirstDate l₂ := by
  have hperm : (sortCashFlows l₁).Perm (sortCashFlows l₂) :=
    ((sortCashFlows_perm l₁).trans h).trans (sortCashFlows_perm l₂).symm
  have h₁ := sortCashFlows_sorted l₁
  have h₂ := sortCashFlows_sorted l₂
  unfold xirrFirstDate
  rcases hq₁ : sortCashFlows l₁ with _ | ⟨f₁, r₁⟩ <;>
    rcases hq₂ : sortCashFlows l₂ with _ | ⟨f₂, r₂⟩
  · rfl
  · rw [hq₁, hq₂] at hperm
    cases hperm.symm.eq_nil
  · rw [hq₁, hq₂] at hperm
    cases hperm.eq_nil
  · rw [hq₁] at hperm h₁
    rw [hq₂] at hperm h₂
    obtain ⟨hb₁, _⟩ := List.pairwise_cons.mp h₁
    obtain ⟨hb₂, _⟩ := List.pairwise_cons.mp h₂
    have h₂₁ : f₂ ∈ f₁ :: r₁ := hperm.symm.subset (List.mem_cons_self f₂ r₂)
    have h₁₂ : f₁ ∈ f₂ :: r₂ := hperm.subset (List.mem_cons_self f₁ r₁)
    have hle₁ : f₁.date ≤ f₂.date := by
      rcases List.mem_cons.mp h₂₁ with rfl | hmem
      · exact Nat.le_refl _
      · exact hb₁ f₂ hmem
    have hle₂ : f₂.date ≤ f₁.date := by
      rcases List.mem_cons.mp h₁₂ with rfl | hmem
      · exact Nat.le_refl _
      · exact hb₂ f₁ hmem
    exact Nat.le_antisymm hle₁ hle₂

theorem npvOf_perm (pw : ℚ → ℚ → ℚ) {l₁ l₂ : List CashFlow} (h : l₁.Perm l₂) (r : ℚ) :
    npvOf pw l₁ r = npvOf pw l₂ r := by
  have hperm : (sortCashFlows l₁).Perm (sortCashFlows l₂) :=
    ((sortCashFlows_perm l₁).trans h).trans (sortCashFlows_perm l₂).symm
  unfold npvOf
  rw [foldl_add_eq (fun cf => cf.amount * pw (1 + r) (-(yearsFrom (xirrFirstDate l₁) cf))),
    foldl_add_eq (fun cf => cf.amount * pw (1 + r) (-(yearsFrom (xirrFirstDate l₂) cf))),
    xirrFirstDate_perm h]
  exact congrArg (0 + ·) (List.Perm.sum_eq (hperm.map _))

theorem dnpvOf_perm (pw : ℚ → ℚ → ℚ) {l₁ l₂ : List CashFlow} (h : l₁.Perm l₂) (r : ℚ) :
    dnpvOf pw l₁ r = dnpvOf pw l₂ r := by
  have hperm : (sortCashFlows l₁).Perm (sortCashFlows l₂) :=
    ((sortCashFlows_perm l₁).trans h).trans (sortCashFlows_perm l₂).symm
  unfold dnpvOf
  rw [foldl_add_eq (fun cf =>
      -(yearsFrom (xirrFirstDate l₁) cf) * cf.amount *
        pw (1 + r) (-(yearsFrom (xirrFirstDate l₁) cf)) / (1 + r)),
    foldl_add_eq (fun cf =>
      -(yearsFrom (xirrFirstDate l₂) cf) * cf.amount *
        pw (1 + r) (-(yearsFrom (xirrFirstDate l₂) cf)) / (1 + r)),
    xirrFirstDate_perm h]
  exact congrArg (0 + ·) (List.Perm.sum_eq (hperm.map _))

theorem xirrLoop_congr {npv₁ npv₂ dnpv₁ dnpv₂ : ℚ → ℚ}
    (hn : ∀ r, npv₁ r = npv₂ r) (hd : ∀ r, dnpv₁ r = dnpv₂ r) :
    ∀ (fuel : ℕ) (r : ℚ), xirrLoop npv₁ dnpv₁ fuel r = xirrLoop npv₂ dnpv₂ fuel r
  | 0, _ => rfl
  | fuel + 1, r => by
    unfold xirrLoop
    rw [hn r, hd r]
    by_cases h1 : |npv₂ r| < xirrTolerance
    · rw [if_pos h1, if_pos h1]
    · rw [if_neg h1, if_neg h1]
      by_cases h2 : dnpv₂ r = 0
      · rw [if_pos h2, if_pos h2]
      · rw [if_neg h2, if_neg h2]
        exact xirrLoop_congr hn hd fuel _

/-- C9: the XIRR solver is order-independent — permuting the input cash-flow
list never changes the result (including whether the result is undefined). -/
theorem calculateXIRR_perm_invariant (pw : ℚ → ℚ → ℚ) (l₁ l₂ : List CashFlow)
    (h : l₁.Perm l₂) :
    calculateXIRR pw l₁ = calculateXIRR pw l₂ := by
  unfold calculateXIRR
  dsimp only
  rw [h.length_eq,
    any_congr_of_perm (((sortCashFlows_perm l₁).trans h).trans (sortCashFlows_perm l₂).symm)
      (fun cf => decide (cf.amount < 0)),
    any_congr_of_perm (((sortCashFlows_perm l₁).trans h).trans (sortCashFlows_perm l₂).symm)
      (fun cf => decide (0 < cf.amount))]
  by_cases hlen : l₂.length < 2
  · rw [if_pos hlen, if_pos hlen]
  · rw [if_neg hlen, if_neg hlen]
    by_cases hflow :
        (!(sortCashFlows l₂).any (fun cf => decide (cf.amount < 0)) ||
          !(sortCashFlows l₂).any (fun cf => decide (0 < cf.amount))) = true
    · rw [if_pos hflow, if_pos hflow]
    · rw [if_neg hflow, if_neg hflow]
      exact xirrLoop_congr (npvOf_perm pw h) (dnpvOf_perm pw h) 100 _

/-- Witness for C9: swapping the two flows of a deposit-plus-return pair
leaves the solver's output unchanged. -/
theorem calculateXIRR_perm_invariant_witness :
    c9Flows.Perm c9FlowsPerm ∧
    calculateXIRR pw0 c9Flows = calculateXIRR pw0 c9FlowsPerm :=
  have hperm : c9Flows.Perm c9FlowsPerm := List.Perm.swap _ _ _
  ⟨hperm, calculateXIRR_perm_invariant pw0 c9Flows c9FlowsPerm hperm⟩

/-! ## C8: the outcome taxonomy of the XIRR solver -/

theorem clampRate_mem (r : ℚ) : -(99/100) ≤ clampRate r ∧ clampRate r ≤ 10 := by
  unfold clampRate
  by_cases h1 : r < -(99/100)
  · rw [if_pos h1]
    norm_num
  · rw [if_neg h1]
    by_cases h2 : (10 : ℚ) < r
    · rw [if_pos h2]
      constructor <;> norm_num
    · rw [if_neg h2]
      constructor <;> linarith [not_lt.mp h1, not_lt.mp h2]

/-- The Newton-Raphson loop succeeds from the `k`-th visited rate with
`fuel` iterations left exactly when some iteration `K` within the budget
converges while every earlier one (from `k` on) neither converges nor hits
a zero derivative, the output being that iteration's rate times `100`. -/
theorem xirrLoop_some_iff (npv dnpv : ℚ → ℚ) :
    ∀ (fuel k : ℕ) (x : ℚ),
      xirrLoop npv dnpv fuel (xirrRates npv dnpv k) = some x ↔
        ∃ K, k ≤ K ∧ K < k + fuel ∧
          |npv (xirrRates npv dnpv K)| < xirrTolerance ∧
          (∀ j, k ≤ j → j < K →
            ¬|npv (xirrRates npv dnpv j)| < xirrTolerance ∧
              dnpv (xirrRates npv dnpv j) ≠ 0) ∧
          x = xirrRates npv dnpv K * 100
  | 0, k, x => by
    constructor
    · intro h
      cases h
    · rintro ⟨K, hkK, hKlt, -⟩
      omega
  | fuel + 1, k, x => by
    rw [show xirrLoop npv dnpv (fuel + 1) (xirrRates npv dnpv k) =
        (if |npv (xirrRates npv dnpv k)| < xirrTolerance then
          some (xirrRates npv dnpv k * 100)
        else if dnpv (xirrRates npv dnpv k) = 0 then none
        else xirrLoop npv dnpv fuel
          (clampRate (xirrRates npv dnpv k -
            npv (xirrRates npv dnpv k) / dnpv (xirrRates npv dnpv k)))) from rfl]
    by_cases hc : |npv (xirrRates npv dnpv k)| < xirrTolerance
    · rw [if_pos hc]
      constructor
      · intro h
        exact ⟨k, le_refl k, by omega, hc, fun j hj hj' => absurd (lt_of_le_of_lt hj hj')
          (lt_irrefl k), (Option.some.inj h).symm⟩
      · rintro ⟨K, hkK, hKlt, hconv, hall, hx⟩
        have hKk : K = k := by
          by_contra hne
          exact (hall k (le_refl k) (lt_of_le_of_ne hkK (Ne.symm hne))).1 hc
        rw [hx, hKk]
    · rw [if_neg hc]
      by_cases hd : dnpv (xirrRates npv dnpv k) = 0
      · rw [if_pos hd]
        constructor
        · intro h
          cases h
        · rintro ⟨K, hkK, hKlt, hconv, hall, hx⟩
          have hne : K ≠ k := fun he => hc (he ▸ hconv)
          exact absurd hd (hall k (le_refl k) (lt_of_le_of_ne hkK (Ne.symm hne))).2
      · rw [if_neg hd]
        rw [show clampRate (xirrRates npv dnpv k -
            npv (xirrRates npv dnpv k) / dnpv (xirrRates npv dnpv k)) =
          xirrRates npv dnpv (k + 1) from rfl]
        rw [xirrLoop_some_iff npv dnpv fuel (k + 1) x]
        constructor
        · rintro ⟨K, hkK, hKlt, hconv, hall, hx⟩
          refine ⟨K, by omega, by omega, hconv, ?_, hx⟩
          intro j hj hjK
          rcases Nat.eq_or_lt_of_le hj with rfl | hjgt
          · exact ⟨hc, hd⟩
          · exact hall j (by omega) hjK
        · rintro ⟨K, hkK, hKlt, hconv, hall, hx⟩
          have hne : K ≠ k := fun he => hc (he ▸ hconv)
          refine ⟨K, by omega, by omega, hconv, ?_, hx⟩
          intro j hj hjK
          exact hall j (by omega) hjK

/-- No successful iteration within the budget is the same as the claim's
failure disjunction: a zero derivative before any convergence, or 100
iterations without convergence. -/
theorem xirr_no_success_iff (npv dnpv : ℚ → ℚ) :
    (¬∃ K, K < 100 ∧ |npv (xirrRates npv dnpv K)| < xirrTolerance ∧
      ∀ j < K, ¬|npv (xirrRates npv dnpv j)| < xirrTolerance ∧
        dnpv (xirrRates npv dnpv j) ≠ 0) ↔
    ((∃ k < 100, dnpv (xirrRates npv dnpv k) = 0 ∧
        ∀ j ≤ k, ¬|npv (xirrRates npv dnpv j)| < xirrTolerance) ∨
      (∀ k < 100, ¬|npv (xirrRates npv dnpv k)| < xirrTolerance)) := by
  constructor
  · intro hns
    by_cases hcv : ∃ k, k < 100 ∧ |npv (xirrRates npv dnpv k)| < xirrTolerance
    · left
      obtain ⟨k0, hk0lt, hk0c⟩ := hcv
      have hex : ∃ k, |npv (xirrRates npv dnpv k)| < xirrTolerance := ⟨k0, hk0c⟩
      have hKle : Nat.find hex ≤ k0 := Nat.find_min' hex hk0c
      have hKlt : Nat.find hex < 100 := lt_of_le_of_lt hKle hk0lt
      by_cases hdz : ∀ j < Nat.find hex, dnpv (xirrRates npv dnpv j) ≠ 0
      · exact absurd ⟨Nat.find hex, hKlt, Nat.find_spec hex,
          fun j hj => ⟨Nat.find_min hex hj, hdz j hj⟩⟩ hns
      · push_neg at hdz
        obtain ⟨j, hjlt, hjz⟩ := hdz
        refine ⟨j, by omega, hjz, ?_⟩
        intro j' hj'
        exact Nat.find_min hex (by omega)
    · right
      intro k hk hc
      exact hcv ⟨k, hk, hc⟩
  · rintro (⟨k, hk, hdz, hnc⟩ | hnc) ⟨K, hKlt, hKc, hall⟩
    · rcases le_or_lt K k with hKk | hkK
      · exact hnc K hKk hKc
      · exact (hall k hkK).2 hdz
    · exact hnc K hKlt hKc

theorem hasOutflow_eq_false_iff (flows : List CashFlow) :
    ((sortCashFlows flows).any fun cf => decide (cf.amount < 0)) = false ↔
      ∀ cf ∈ flows, ¬cf.amount < 0 := by
  rw [← Bool.not_eq_true, List.any_eq_true]
  push_neg
  constructor
  · intro h cf hmem
    have := h cf (((sortCashFlows_perm flows).symm).subset hmem)
    simpa using this
  · intro h cf hmem
    have := h cf ((sortCashFlows_perm flows).subset hmem)
    simpa using this

theorem hasInflow_eq_false_iff (flows : List CashFlow) :
    ((sortCashFlows flows).any fun cf => decide (0 < cf.amount)) = false ↔
      ∀ cf ∈ flows, ¬0 < cf.amount := by
  rw [← Bool.not_eq_true, List.any_eq_true]
  push_neg
  constructor
  · intro h cf hmem
    have := h cf (((sortCashFlows_perm flows).symm).subset hmem)
    simpa using this
  · intro h cf hmem
    have := h cf ((sortCashFlows_perm flows).subset hmem)
    simpa using this

/-- C8: the solver returns undefined exactly on the claim's failure cases —
fewer than 2 flows, no negative flow, no positive flow, a zero NPV
derivative reached before any convergence, or 100 iterations without
`|NPV| < 1e-6`; otherwise it returns the converged rate times 100, the rate
being clamped into `[-0.99, 10]` at every iteration. -/
theorem calculateXIRR_taxonomy (pw : ℚ → ℚ → ℚ) (flows : List CashFlow) :
    (calculateXIRR pw flows = none ↔
      xirrIllPosed flows ∨
      (∃ k < 100, xirrDerivZeroAt pw flows k ∧ ∀ j ≤ k, ¬xirrConvergedAt pw flows j) ∨
      (∀ k < 100, ¬xirrConvergedAt pw flows k)) ∧
    (∀ x, calculateXIRR pw flows = some x ↔
      (¬xirrIllPosed flows ∧
        ∃ K, K < 100 ∧ xirrConvergedAt pw flows K ∧
          (∀ j < K, ¬xirrConvergedAt pw flows j ∧ ¬xirrDerivZeroAt pw flows j) ∧
          x = xirrRateSeq pw flows K * 100)) ∧
    (∀ k, 0 < k → -(99/100) ≤ xirrRateSeq pw flows k ∧ xirrRateSeq pw flows k ≤ 10) := by
  have hsome : ∀ x, calculateXIRR pw flows = some x ↔
      (¬xirrIllPosed flows ∧
        ∃ K, K < 100 ∧ xirrConvergedAt pw flows K ∧
          (∀ j < K, ¬xirrConvergedAt pw flows j ∧ ¬xirrDerivZeroAt pw flows j) ∧
          x = xirrRateSeq pw flows K * 100) := by
    intro x
    unfold calculateXIRR
    dsimp only
    by_cases hlen : flows.length < 2
    · rw [if_pos hlen]
      constructor
      · intro h
        cases h
      · rintro ⟨hni, -⟩
        exact absurd (Or.inl hlen) hni
    · rw [if_neg hlen]
      by_cases hflow :
          (!(sortCashFlows flows).any (fun cf => decide (cf.amount < 0)) ||
            !(sortCashFlows flows).any (fun cf => decide (0 < cf.amount))) = true
      · rw [if_pos hflow]
        constructor
        · intro h
          cases h
        · rintro ⟨hni, -⟩
          rw [Bool.or_eq_true, Bool.not_eq_true', Bool.not_eq_true'] at hflow
          rcases hflow with hof | hif
          · exact absurd (Or.inr (Or.inl ((hasOutflow_eq_false_iff flows).mp hof))) hni
          · exact absurd (Or.inr (Or.inr ((hasInflow_eq_false_iff flows).mp hif))) hni
      · rw [if_neg hflow]
        have hni : ¬xirrIllPosed flows := by
          rw [Bool.or_eq_true, Bool.not_eq_true', Bool.not_eq_true'] at hflow
          push_neg at hflow
          obtain ⟨hof, hif⟩ := hflow
          rintro (h | h | h)
          · exact hlen h
          · exact hof ((hasOutflow_eq_false_iff flows).mpr h)
          · exact hif ((hasInflow_eq_false_iff flows).mpr h)
        rw [show (1 / 10 : ℚ) =
          xirrRates (npvOf pw flows) (dnpvOf pw flows) 0 from rfl]
        rw [xirrLoop_some_iff (npvOf pw flows) (dnpvOf pw flows) 100 0 x]
        unfold xirrConvergedAt xirrDerivZeroAt xirrRateSeq
        constructor
        · rintro ⟨K, -, hKlt, hconv, hall, hx⟩
          exact ⟨hni, K, by omega, hconv, fun j hj =>
            ⟨(hall j (Nat.zero_le j) hj).1, (hall j (Nat.zero_le j) hj).2⟩, hx⟩
        · rintro ⟨-, K, hKlt, hconv, hall, hx⟩
          exact ⟨K, Nat.zero_le K, by omega, hconv, fun j _ hj => hall j hj, hx⟩
  refine ⟨?_, hsome, ?_⟩
  · have hnone : calculateXIRR pw flows = none ↔ ¬∃ x, calculateXIRR pw flows = some x := by
      rcases hres : calculateXIRR pw flows with _ | a
      · simp
      · simp
    rw [hnone]
    constructor
    · intro hn
      by_cases hip : xirrIllPosed flows
      · exact Or.inl hip
      · refine Or.inr ?_
        unfold xirrDerivZeroAt xirrConvergedAt xirrRateSeq
        rw [← xirr_no_success_iff (npvOf pw flows) (dnpvOf pw flows)]
        intro ⟨K, hKlt, hKc, hall⟩
        exact hn ⟨xirrRateSeq pw flows K * 100, (hsome _).mpr
          ⟨hip, K, hKlt, hKc, fun j hj => hall j hj, rfl⟩⟩
    · intro hfail ⟨x, hx⟩
      obtain ⟨hni, K, hKlt, hKc, hall, -⟩ := (hsome x).mp hx
      rcases hfail with hip | hfail
      · exact hni hip
      · unfold xirrDerivZeroAt xirrConvergedAt xirrRateSeq at hfail
        have := (xirr_no_success_iff (npvOf pw flows) (dnpvOf pw flows)).mpr hfail
        unfold xirrConvergedAt xirrRateSeq at hKc
        unfold xirrConvergedAt xirrDerivZeroAt xirrRateSeq at hall
        exact this ⟨K, hKlt, hKc, fun j hj => ⟨(hall j hj).1, (hall j hj).2⟩⟩
  · intro k hk
    cases k with
    | zero => exact absurd hk (lt_irrefl 0)
    | succ k =>
      exact clampRate_mem _

/-! ## C3: wallet aggregates are over Complete positions only -/

theorem dedupKeepFirst_mem :
    ∀ (L seen : List String) (x : String),
      x ∈ dedupKeepFirst L seen ↔ x ∈ L ∧ x ∉ seen
  | [], seen, x => by simp [dedupKeepFirst]
  | y :: L, seen, x => by
    unfold dedupKeepFirst
    by_cases hy : y ∈ seen
    · rw [if_pos hy, dedupKeepFirst_mem L seen x]
      constructor
      · rintro ⟨hL, hs⟩
        exact ⟨List.mem_cons_of_mem y hL, hs⟩
      · rintro ⟨hyL, hs⟩
        rcases List.mem_cons.mp hyL with rfl | hL
        · exact absurd hy hs
        · exact ⟨hL, hs⟩
    · rw [if_neg hy, List.mem_cons, dedupKeepFirst_mem L (y :: seen) x]
      constructor
      · rintro (rfl | ⟨hL, hs⟩)
        · exact ⟨List.mem_cons_self x L, hy⟩
        · exact ⟨List.mem_cons_of_mem y hL,
            fun hxs => hs (List.mem_cons_of_mem y hxs)⟩
      · rintro ⟨hyL, hs⟩
        by_cases hxy : x = y
        · exact Or.inl hxy
        · rcases List.mem_cons.mp hyL with h | hL
          · exact absurd h hxy
          · exact Or.inr ⟨hL, fun hxs => by
              rcases List.mem_cons.mp hxs with h | h
              · exact hxy h
              · exact hs h⟩

theorem dedupKeepFirst_cons_of_mem (y : String) (L seen : List String) (h : y ∈ seen) :
    dedupKeepFirst (y :: L) seen = dedupKeepFirst L seen := by
  conv_lhs => unfold dedupKeepFirst
  rw [if_pos h]

theorem dedupKeepFirst_cons_of_not_mem (y : String) (L seen : List String) (h : y ∉ seen) :
    dedupKeepFirst (y :: L) seen = y :: dedupKeepFirst L (y :: seen) := by
  conv_lhs => unfold dedupKeepFirst
  rw [if_neg h]

theorem dedupKeepFirst_filter_ne (t : String) :
    ∀ (L seen₁ seen₂ : List String),
      (∀ x : String, ¬x = t → (x ∈ seen₁ ↔ x ∈ seen₂)) →
      dedupKeepFirst (L.filter fun x => ¬x = t) seen₁ =
        (dedupKeepFirst L seen₂).filter fun x => ¬x = t
  | [], _, _, _ => rfl
  | y :: L, seen₁, seen₂, hrel => by
    by_cases hy : y = t
    · have hfc : (y :: L).filter (fun x => ¬x = t) = L.filter fun x => ¬x = t := by
        simp [List.filter_cons, hy]
      rw [hfc]
      by_cases hy₂ : y ∈ seen₂
      · rw [dedupKeepFirst_cons_of_mem y L seen₂ hy₂]
        exact dedupKeepFirst_filter_ne t L seen₁ seen₂ hrel
      · rw [dedupKeepFirst_cons_of_not_mem y L seen₂ hy₂]
        have hdrop : (y :: dedupKeepFirst L (y :: seen₂)).filter (fun x => ¬x = t) =
            (dedupKeepFirst L (y :: seen₂)).filter fun x => ¬x = t := by
          simp [List.filter_cons, hy]
        rw [hdrop]
        refine dedupKeepFirst_filter_ne t L seen₁ (y :: seen₂) ?_
        intro x hx
        rw [hrel x hx, List.mem_cons]
        constructor
        · exact Or.inr
        · rintro (rfl | h)
          · exact absurd hy hx
          · exact h
    · have hfc : (y :: L).filter (fun x => ¬x = t) =
          y :: (L.filter fun x => ¬x = t) := by
        simp [List.filter_cons, hy]
      rw [hfc]
      by_cases hy₁ : y ∈ seen₁
      · have hy₂ : y ∈ seen₂ := (hrel y hy).mp hy₁
        rw [dedupKeepFirst_cons_of_mem y (L.filter fun x => ¬x = t) seen₁ hy₁]
        rw [dedupKeepFirst_cons_of_mem y L seen₂ hy₂]
        exact dedupKeepFirst_filter_ne t L seen₁ seen₂ hrel
      · have hy₂ : y ∉ seen₂ := fun h => hy₁ ((hrel y hy).mpr h)
        rw [dedupKeepFirst_cons_of_not_mem y (L.filter fun x => ¬x = t) seen₁ hy₁]
        rw [dedupKeepFirst_cons_of_not_mem y L seen₂ hy₂]
        have hkeep : (y :: dedupKeepFirst L (y :: seen₂)).filter (fun x => ¬x = t) =
            y :: ((dedupKeepFirst L (y :: seen₂)).filter fun x => ¬x = t) := by
          simp [List.filter_cons, hy]
        rw [hkeep]
        refine congrArg (y :: ·) ?_
        refine dedupKeepFirst_filter_ne t L (y :: seen₁) (y :: seen₂) ?_
        intro x hx
        rw [List.mem_cons, List.mem_cons, hrel x hx]

theorem map_filter_comm {α β : Type} (f : α → β) (q : β → Prop) [DecidablePred q] :
    ∀ l : List α, ((l.filter fun a => q (f a)).map f) = ((l.map f).filter fun b => q b)
  | [] => rfl
  | a :: l => by
    by_cases ha : q (f a) <;>
      simp [List.filter_cons, ha, map_filter_comm f q l]

theorem filter_swap {α : Type} (p q : α → Prop) [DecidablePred p] [DecidablePred q] :
    ∀ l : List α, ((l.filter fun a => p a).filter fun a => q a) =
      ((l.filter fun a => q a).filter fun a => p a)
  | [] => rfl
  | a :: l => by
    by_cases hp : p a <;> by_cases hq : q a <;>
      simp [List.filter_cons, hp, hq, filter_swap p q l]

theorem tokenIdsOf_filter_ne (rows : List AnalysisRow) (t : String) :
    tokenIdsOf (rows.filter fun r => ¬r.token_id = t) =
      (tokenIdsOf rows).filter fun s => ¬s = t := by
  unfold tokenIdsOf
  rw [show ((rows.filter fun r => ¬r.token_id = t).map fun r => r.token_id) =
      ((rows.map fun r => r.token_id).filter fun s => ¬s = t) from
    map_filter_comm (fun r => r.token_id) (fun s => ¬s = t) rows]
  rw [filter_swap]
  exact dedupKeepFirst_filter_ne t _ [] [] (fun _ _ => Iff.rfl)

theorem groupOf_filter_ne {s t : String} (hst : ¬s = t) :
    ∀ rows : List AnalysisRow,
      groupOf (rows.filter fun r => ¬r.token_id = t) s = groupOf rows s
  | [] => rfl
  | r :: rows => by
    show groupOf ((r :: rows).filter fun r => ¬r.token_id = t) s = _
    by_cases hrt : r.token_id = t
    · have hrs : ¬r.token_id = s := fun h => hst (by rw [← h, hrt])
      have h1 : (r :: rows).filter (fun r => ¬r.token_id = t) =
          rows.filter fun r => ¬r.token_id = t := by
        simp [List.filter_cons, hrt]
      have h2 : groupOf (r :: rows) s = groupOf rows s := by
        unfold groupOf
        simp [List.filter_cons, hrs]
      rw [h1, h2]
      exact groupOf_filter_ne hst rows
    · have h1 : (r :: rows).filter (fun r => ¬r.token_id = t) =
          r :: (rows.filter fun r => ¬r.token_id = t) := by
        simp [List.filter_cons, hrt]
      rw [h1]
      by_cases hrs : r.token_id = s
      · have h2 : ∀ l, groupOf (r :: l) s = r :: groupOf l s := by
          intro l
          unfold groupOf
          simp [List.filter_cons, hrs]
        rw [h2, h2]
        exact congrArg (r :: ·) (groupOf_filter_ne hst rows)
      · have h2 : ∀ l, groupOf (r :: l) s = groupOf l s := by
          intro l
          unfold groupOf
          simp [List.filter_cons, hrs]
        rw [h2, h2]
        exact groupOf_filter_ne hst rows

theorem mem_tokenIdsOf {rows : List AnalysisRow} {s : String} :
    s ∈ tokenIdsOf rows ↔ (¬s = "" ∧ ∃ r ∈ rows, r.token_id = s) := by
  unfold tokenIdsOf
  rw [dedupKeepFirst_mem]
  constructor
  · rintro ⟨hmem, -⟩
    obtain ⟨hmem', hs⟩ := List.mem_filter.mp hmem
    obtain ⟨r, hr, hrs⟩ := List.mem_map.mp hmem'
    exact ⟨by simpa using hs, r, hr, hrs⟩
  · rintro ⟨hs, r, hr, hrs⟩
    exact ⟨List.mem_filter.mpr ⟨List.mem_map.mpr ⟨r, hr, hrs⟩, by simpa using hs⟩,
      List.not_mem_nil s⟩

theorem stats_token_id {pw : ℚ → ℚ → ℚ} {rows : List AnalysisRow} {s : String}
    (hs : ∃ r ∈ rows, r.token_id = s) (hne : ¬s = "") :
    (calculatePositionStats pw (groupOf rows s)).token_id = s := by
  obtain ⟨r, hr, hrs⟩ := hs
  have hmem : r ∈ groupOf rows s := by
    unfold groupOf
    rw [List.mem_filter]
    exact ⟨hr, by simp [hrs]⟩
  rcases hq : groupOf rows s with _ | ⟨r₀, g⟩
  · rw [hq] at hmem
    cases hmem
  · have hr₀ : r₀ ∈ groupOf rows s := by
      rw [hq]
      exact List.mem_cons_self r₀ g
    have hr₀s : r₀.token_id = s := by
      unfold groupOf at hr₀
      have := (List.mem_filter.mp hr₀).2
      simpa using this
    show (match r₀ :: g with
      | [] => "unknown"
      | r :: _ => if r.token_id = "" then "unknown" else r.token_id) = s
    rw [show (match r₀ :: g with
      | [] => "unknown"
      | r :: _ => if r.token_id = "" then "unknown" else r.token_id) =
        (if r₀.token_id = "" then "unknown" else r₀.token_id) from rfl]
    rw [hr₀s, if_neg hne]

theorem stats_not_complete {pw : ℚ → ℚ → ℚ} {g : List AnalysisRow}
    (h : (∀ r ∈ g, ¬r.action = ActionKind.mint) ∨ (∀ r ∈ g, ¬r.action = ActionKind.burn)) :
    ¬(0 < (calculatePositionStats pw g).mint_count ∧
      0 < (calculatePositionStats pw g).burn_count) := by
  rintro ⟨hm, hb⟩
  rcases h with h | h
  · have : (mintsOf g).length = 0 := by
      unfold mintsOf
      rw [(List.perm_insertionSort tsLe _).length_eq, List.length_eq_zero,
        List.filter_eq_nil_iff]
      intro a ha
      simpa using h a ha
    rw [show (calculatePositionStats pw g).mint_count = (mintsOf g).length from rfl,
      this] at hm
    exact lt_irrefl 0 hm
  · have : (burnsOf g).length = 0 := by
      unfold burnsOf
      rw [(List.perm_insertionSort tsLe _).length_eq, List.length_eq_zero,
        List.filter_eq_nil_iff]
      intro a ha
      simpa using h a ha
    rw [show (calculatePositionStats pw g).burn_count = (burnsOf g).length from rfl,
      this] at hb
    exact lt_irrefl 0 hb

theorem filter_map_filter_ne {α β : Type} [DecidableEq α] (t : α) (f : α → β)
    (C : β → Prop) [DecidablePred C] (hc : ¬C (f t)) :
    ∀ l : List α,
      (((l.filter fun x => ¬x = t).map f).filter fun b => C b) =
        ((l.map f).filter fun b => C b)
  | [] => rfl
  | x :: l => by
    have ih := filter_map_filter_ne t f C hc l
    simp only [decide_not] at ih
    by_cases hx : x = t
    · subst hx
      simp [List.filter_cons, hc, ih]
    · by_cases hcx : C (f x) <;> simp [List.filter_cons, hx, hcx, ih]

theorem completePositionsOf_filter_ne (pw : ℚ → ℚ → ℚ) (rows : List AnalysisRow)
    (t : String)
    (h : (∀ r ∈ groupOf rows t, ¬r.action = ActionKind.mint) ∨
         (∀ r ∈ groupOf rows t, ¬r.action = ActionKind.burn)) :
    completePositionsOf pw (rows.filter fun r => ¬r.token_id = t) =
      completePositionsOf pw rows := by
  unfold completePositionsOf positionStatsListOf
  rw [tokenIdsOf_filter_ne]
  rw [List.map_congr_left (fun s hs => by
    have hst : ¬s = t := by
      have := (List.mem_filter.mp hs).2
      simpa using this
    exact congrArg (calculatePositionStats pw) (groupOf_filter_ne hst rows))]
  exact filter_map_filter_ne t (fun s => calculatePositionStats pw (groupOf rows s))
    (fun p => 0 < p.mint_count ∧ 0 < p.burn_count) (stats_not_complete h) (tokenIdsOf rows)

theorem not_mem_completeTokenIds (pw : ℚ → ℚ → ℚ) (rows : List AnalysisRow)
    (t : String) (ht : ¬t = "")
    (h : (∀ r ∈ groupOf rows t, ¬r.action = ActionKind.mint) ∨
         (∀ r ∈ groupOf rows t, ¬r.action = ActionKind.burn)) :
    t ∉ completeTokenIdsOf pw rows := by
  intro hmem
  unfold completeTokenIdsOf at hmem
  obtain ⟨p, hp, hpt⟩ := List.mem_map.mp hmem
  unfold completePositionsOf at hp
  obtain ⟨hp', hpc⟩ := List.mem_filter.mp hp
  unfold positionStatsListOf at hp'
  obtain ⟨s, hsmem, hsp⟩ := List.mem_map.mp hp'
  have hsid : s = t := by
    obtain ⟨hne, hex⟩ := mem_tokenIdsOf.mp hsmem
    have := @stats_token_id pw rows s hex hne
    rw [hsp, hpt] at this
    exact this.symm
  subst hsid
  rw [← hsp] at hpc
  exact stats_not_complete h (by simpa using hpc)

theorem filter_filter_of_imp {α : Type} (P Q : α → Prop) [DecidablePred P]
    [DecidablePred Q] :
    ∀ l : List α, (∀ a ∈ l, Q a → P a) →
      ((l.filter fun a => P a).filter fun a => Q a) = l.filter fun a => Q a
  | [], _ => rfl
  | a :: l, h => by
    have ih := filter_filter_of_imp P Q l (fun b hb => h b (List.mem_cons_of_mem a hb))
    by_cases hq : Q a
    · have hp : P a := h a (List.mem_cons_self a l) hq
      simp [List.filter_cons, hp, hq, ih]
    · by_cases hp : P a <;> simp [List.filter_cons, hp, hq, ih]

theorem rowsFromComplete_filter_ne (pw : ℚ → ℚ → ℚ) (rows : List AnalysisRow)
    (t : String) (ht : ¬t = "")
    (h : (∀ r ∈ groupOf rows t, ¬r.action = ActionKind.mint) ∨
         (∀ r ∈ groupOf rows t, ¬r.action = ActionKind.burn)) :
    rowsFromCompletePositionsOf pw (rows.filter fun r => ¬r.token_id = t) =
      rowsFromCompletePositionsOf pw rows := by
  unfold rowsFromCompletePositionsOf completeTokenIdsOf
  rw [completePositionsOf_filter_ne pw rows t h]
  refine filter_filter_of_imp _ _ rows ?_
  intro r _ hq
  rcases hq with hq | hq
  · intro hrt
    rw [hrt] at hq
    exact ht hq
  · intro hrt
    rw [hrt] at hq
    exact not_mem_completeTokenIds pw rows t ht h (by
      unfold completeTokenIdsOf
      exact hq)

/-- C3: wallet-level aggregates sum over Complete positions only — deleting
an Unclosed (mint-only) or PreExisting (burn-only) position's rows from
the input leaves every wallet-level aggregate unchanged, while the position
is still present among the reported per-position statistics. -/
theorem walletStats_completeOnly (pw : ℚ → ℚ → ℚ) (rows : List AnalysisRow)
    (t : String) (ht : ¬t = "")
    (hne : ∃ r ∈ rows, r.token_id = t)
    (h : (∀ r ∈ groupOf rows t, ¬r.action = ActionKind.mint) ∨
         (∀ r ∈ groupOf rows t, ¬r.action = ActionKind.burn)) :
    walletStatsOf pw (rows.filter fun r => ¬r.token_id = t) = walletStatsOf pw rows ∧
    t ∈ tokenIdsOf rows ∧
    t ∈ (positionStatsListOf pw rows).map fun p => p.token_id := by
  refine ⟨?_, mem_tokenIdsOf.mpr ⟨ht, hne⟩, ?_⟩
  · unfold walletStatsOf
    rw [completePositionsOf_filter_ne pw rows t h,
      rowsFromComplete_filter_ne pw rows t ht h]
  · refine List.mem_map.mpr ⟨calculatePositionStats pw (groupOf rows t), ?_, ?_⟩
    · exact List.mem_map.mpr ⟨t, mem_tokenIdsOf.mpr ⟨ht, hne⟩, rfl⟩
    · exact stats_token_id hne ht

/-- Witness for C3: a wallet with one Complete position (`"1"`) and one
Unclosed position (`"2"`); dropping the Unclosed position's rows leaves the
wallet summary unchanged. -/
theorem walletStats_completeOnly_witness :
    (¬("2" : String) = "") ∧
    (∃ r ∈ c3Rows, r.token_id = "2") ∧
    (∀ r ∈ groupOf c3Rows "2", ¬r.action = ActionKind.burn) ∧
    walletStatsOf pw0 (c3Rows.filter fun r => ¬r.token_id = "2") =
      walletStatsOf pw0 c3Rows ∧
    "2" ∈ tokenIdsOf c3Rows :=
  have h := walletStats_completeOnly pw0 c3Rows "2" (by decide) (by decide)
    (Or.inr (by decide))
  ⟨by decide, by decide, by decide, h.1, h.2.1⟩

/-! ## C1: the price decoder squares after, not before, the float conversion -/

theorem int_log2_eq {q : ℚ} {e : ℤ} (h0 : 0 < q)
    (h1 : (2:ℚ) ^ e ≤ q) (h2 : q < (2:ℚ) ^ (e + 1)) :
    Int.log 2 q = e := by
  have hb : 1 < (2:ℕ) := by norm_num
  have hle : e ≤ Int.log 2 q := by
    rw [← Int.zpow_le_iff_le_log hb h0]
    exact_mod_cast h1
  have hlt : Int.log 2 q < e + 1 := by
    rw [← Int.lt_zpow_iff_log_lt hb h0]
    exact_mod_cast h2
  omega

/-- Evaluation scheme for `fpRound` at a positive rational whose binade,
scaled floor and rounded mantissa are supplied explicitly. -/
theorem fpRound_eval {q : ℚ} {e f n : ℤ}
    (h0 : 0 < q) (h1 : (2:ℚ) ^ e ≤ q) (h2 : q < (2:ℚ) ^ (e + 1))
    (hf : ⌊q * (2:ℚ) ^ ((52:ℤ) - e)⌋ = f)
    (hn : (if q * (2:ℚ) ^ ((52:ℤ) - e) - (f:ℚ) < 1/2 then f
           else if 1/2 < q * (2:ℚ) ^ ((52:ℤ) - e) - (f:ℚ) then f + 1
           else if f % 2 = 0 then f else f + 1) = n) :
    fpRound q = (n : ℚ) * (2:ℚ) ^ (e - 52) := by
  have hlog : Int.log 2 q = e := int_log2_eq h0 h1 h2
  unfold fpRound
  rw [if_neg h0.ne', if_pos h0]
  unfold posRound
  dsimp only
  rw [hlog]
  unfold roundTiesEven
  dsimp only
  rw [hf, hn]

/-- C1 fails on the code: the decoder converts `sqrtPriceX96` to floating
point and divides by `2^96` before squaring.  At `sqrtPriceX96 = 2^53 + 1`
(the smallest integer that is not exactly representable in binary64) the
implemented decoder returns `2^52 / 2^138 = 2^-86`, while the exact rational
`sqrtPriceX96^2 / 2^192`, correctly rounded once, is `(2^52 + 1) / 2^138` —
the two values differ. -/
theorem priceDecoder_floatSquaring_diverges :
    priceToken1PerToken0FromSqrtPriceX96 9007199254740993 =
      4503599627370496 / 2 ^ 138 ∧
    specPriceToken1PerToken0 9007199254740993 =
      4503599627370497 / 2 ^ 138 ∧
    priceToken1PerToken0FromSqrtPriceX96 9007199254740993 ≠
      specPriceToken1PerToken0 9007199254740993 := by
  have hE1 : fpRound (9007199254740993 : ℚ) = 9007199254740992 := by
    rw [fpRound_eval (e := 53) (f := 4503599627370496) (n := 4503599627370496)
      (by norm_num) (by norm_num) (by norm_num)
      (by rw [show (9007199254740993:ℚ) * (2:ℚ) ^ ((52:ℤ) - 53) =
            9007199254740993/2 from by norm_num]
          rw [Int.floor_eq_iff]
          constructor <;> norm_num)
      (by norm_num)]
    norm_num
  have hE2 : fpRound (79228162514264337593543950336 : ℚ) =
      79228162514264337593543950336 := by
    rw [fpRound_eval (e := 96) (f := 4503599627370496) (n := 4503599627370496)
      (by norm_num) (by norm_num) (by norm_num)
      (by rw [show (79228162514264337593543950336:ℚ) * (2:ℚ) ^ ((52:ℤ) - 96) =
            4503599627370496 from by norm_num]
          rw [Int.floor_eq_iff]
          constructor <;> norm_num)
      (by norm_num)]
    norm_num
  have hE3 : fpRound (1/8796093022208 : ℚ) = 1/8796093022208 := by
    rw [fpRound_eval (e := -43) (f := 4503599627370496) (n := 4503599627370496)
      (by norm_num) (by norm_num) (by norm_num)
      (by rw [show (1/8796093022208:ℚ) * (2:ℚ) ^ ((52:ℤ) - (-43)) =
            4503599627370496 from by norm_num]
          rw [Int.floor_eq_iff]
          constructor <;> norm_num)
      (by norm_num)]
    norm_num
  have hE4 : fpRound (1/77371252455336267181195264 : ℚ) =
      4503599627370496 / 2 ^ 138 := by
    rw [fpRound_eval (e := -86) (f := 4503599627370496) (n := 4503599627370496)
      (by norm_num) (by norm_num) (by norm_num)
      (by rw [show (1/77371252455336267181195264:ℚ) * (2:ℚ) ^ ((52:ℤ) - (-86)) =
            4503599627370496 from by norm_num]
          rw [Int.floor_eq_iff]
          constructor <;> norm_num)
      (by norm_num)]
    norm_num
  have hE5 : fpRound ((81129638414606699710187514626049 : ℚ) /
      6277101735386680763835789423207666416102355444464034512896) =
      4503599627370497 / 2 ^ 138 := by
    rw [fpRound_eval (e := -86) (f := 4503599627370497) (n := 4503599627370497)
      (by norm_num) (by norm_num) (by norm_num)
      (by rw [show ((81129638414606699710187514626049 : ℚ) /
              6277101735386680763835789423207666416102355444464034512896) *
              (2:ℚ) ^ ((52:ℤ) - (-86)) =
            81129638414606699710187514626049/18014398509481984 from by norm_num]
          rw [Int.floor_eq_iff]
          constructor <;> norm_num)
      (by norm_num)]
    norm_num
  have hcode : priceToken1PerToken0FromSqrtPriceX96 9007199254740993 =
      4503599627370496 / 2 ^ 138 := by
    unfold priceToken1PerToken0FromSqrtPriceX96
    dsimp only
    rw [show ((9007199254740993 : ℕ) : ℚ) = 9007199254740993 from by norm_num]
    rw [show ((2:ℚ) ^ (96:ℕ)) = 79228162514264337593543950336 from by norm_num]
    rw [hE1, hE2]
    rw [show (9007199254740992 : ℚ) / 79228162514264337593543950336 =
      1/8796093022208 from by norm_num]
    rw [hE3]
    rw [show (1/8796093022208 : ℚ) * (1/8796093022208) =
      1/77371252455336267181195264 from by norm_num]
    rw [hE4]
  have hspec : specPriceToken1PerToken0 9007199254740993 =
      4503599627370497 / 2 ^ 138 := by
    unfold specPriceToken1PerToken0
    rw [show (((9007199254740993 : ℕ) : ℚ)) ^ (2:ℕ) / (2:ℚ) ^ (192:ℕ) =
      (81129638414606699710187514626049 : ℚ) /
        6277101735386680763835789423207666416102355444464034512896 from by norm_num]
    rw [hE5]
  refine ⟨hcode, hspec, ?_⟩
  rw [hcode, hspec]
  norm_num

end LPReturns
